import Mathlib

/-!
Verification of the Vercel5 webhook-to-exchange relay.

This file gives a shallow embedding, in Lean 4, of the message-processing
core of the repository (the services under `app/services/` together with the
signature-validation function shared by `app/main.py` and `api/index.py`),
and proves or refutes the specified properties of that core.

Modelling conventions:
  * JSON values are the inductive `Json` below (numbers are modelled as
    integers; no claim depends on float payloads).
  * Python dicts that come from JSON are association lists with the
    first binding of a key authoritative, mirroring dict lookup.
  * External effects (the HTTP transport, the process clock, Python's
    string `hash`, and the stdlib HMAC primitive) enter the model as
    explicit parameters: an outcome oracle for the transport, an explicit
    `now` for the clock, and function arguments for `hash`/HMAC.
  * Machine-level concerns (timing of `hmac.compare_digest`, asyncio
    scheduling, logging) are outside the embedding; comparison functions
    are modelled by their input/output behaviour.
-/

/-- A JSON value, as produced by `request.json()` / `response.json()`.
Numbers are modelled as integers (no claim exercises float payloads). -/
inductive Json where
  | null : Json
  | bool (b : Bool) : Json
  | num (n : Int) : Json
  | str (s : String) : Json
  | arr (elems : List Json) : Json
  | obj (fields : List (String × Json)) : Json

namespace Json

mutual

/-- Structural equality of JSON values (Python `==` on parsed JSON). -/
def eqv (u : Json) (w : Json) : Bool :=
  match u, w with
  | .null, .null => true
  | .bool p, .bool q => p == q
  | .num p, .num q => p == q
  | .str p, .str q => p == q
  | .arr p, .arr q => eqvElems p q
  | .obj p, .obj q => eqvPairs p q
  | _, _ => false

/-- Elementwise equality of JSON arrays. -/
def eqvElems (us : List Json) (ws : List Json) : Bool :=
  match us, ws with
  | [], [] => true
  | u :: ur, w :: wr => eqv u w && eqvElems ur wr
  | _, _ => false

/-- Elementwise equality of JSON object field lists. -/
def eqvPairs (us : List (String × Json)) (ws : List (String × Json)) : Bool :=
  match us, ws with
  | [], [] => true
  | (uk, uv) :: ur, (wk, wv) :: wr => uk == wk && eqv uv wv && eqvPairs ur wr
  | _, _ => false

end

/-- Strong induction over `Json`, recursing through arrays and objects. -/
theorem inductionOn {motive : Json → Prop}
    (hnull : motive .null) (hbool : ∀ b, motive (.bool b))
    (hnum : ∀ n, motive (.num n)) (hstr : ∀ s, motive (.str s))
    (harr : ∀ l, (∀ x ∈ l, motive x) → motive (.arr l))
    (hobj : ∀ f, (∀ kv ∈ f, motive (Prod.snd kv)) → motive (.obj f)) :
    ∀ j, motive j := by
  have H : ∀ (n : Nat) (j : Json), sizeOf j ≤ n → motive j := by
    intro n
    induction n using Nat.strong_induction_on with
    | _ n ih =>
      intro j hj
      cases j with
      | null => exact hnull
      | bool b => exact hbool b
      | num m => exact hnum m
      | str s => exact hstr s
      | arr l =>
        refine harr l fun x hx => ?_
        have h1 : sizeOf x < sizeOf l := List.sizeOf_lt_of_mem hx
        have h2 : sizeOf l < sizeOf (Json.arr l) := by simp
        exact ih (sizeOf x) (by omega) x (le_refl _)
      | obj f =>
        refine hobj f fun kv hkv => ?_
        have h1 : sizeOf kv < sizeOf f := List.sizeOf_lt_of_mem hkv
        have h2 : sizeOf kv.2 < sizeOf kv := by
          cases kv with
          | mk k v => simp
        have h3 : sizeOf f < sizeOf (Json.obj f) := by simp
        exact ih (sizeOf kv.2) (by omega) kv.2 (le_refl _)
  exact fun j => H (sizeOf j) j (le_refl _)

theorem eqvElems_iff (l l' : List Json)
    (h : ∀ x ∈ l, ∀ b, eqv x b = true ↔ x = b) :
    eqvElems l l' = true ↔ l = l' := by
  induction l generalizing l' with
  | nil => cases l' <;> simp [eqvElems]
  | cons x xs ihx =>
    cases l' with
    | nil => simp [eqvElems]
    | cons y ys =>
      simp only [eqvElems, Bool.and_eq_true]
      rw [h x (by simp) y, ihx ys (fun z hz => h z (by simp [hz]))]
      simp

theorem eqvPairs_iff (l l' : List (String × Json))
    (h : ∀ kv ∈ l, ∀ b, eqv (Prod.snd kv) b = true ↔ Prod.snd kv = b) :
    eqvPairs l l' = true ↔ l = l' := by
  induction l generalizing l' with
  | nil => cases l' <;> simp [eqvPairs]
  | cons kv xs ihx =>
    cases l' with
    | nil => cases kv; simp [eqvPairs]
    | cons kv' ys =>
      cases kv with
      | mk k v =>
        cases kv' with
        | mk k' v' =>
          simp only [eqvPairs, Bool.and_eq_true]
          rw [ihx ys (fun z hz => h z (by simp [hz]))]
          have hv := h (k, v) (by simp) v'
          constructor
          · rintro ⟨⟨hk, hb⟩, hrest⟩
            have : v = v' := hv.mp hb
            have : k = k' := by simpa using hk
            simp_all
          · rintro h2
            injection h2 with h3 h4
            injection h3 with hk hv'
            subst hk; subst hv'; subst h4
            exact ⟨⟨by simp, hv.mpr rfl⟩, rfl⟩

theorem eqv_iff : ∀ a b : Json, eqv a b = true ↔ a = b := by
  intro a
  induction a using Json.inductionOn with
  | hnull => intro b; cases b <;> simp [eqv]
  | hbool x => intro b; cases b <;> simp [eqv]
  | hnum x => intro b; cases b <;> simp [eqv]
  | hstr x => intro b; cases b <;> simp [eqv]
  | harr l ih =>
    intro b
    cases b with
    | arr l' =>
      simp only [eqv]
      rw [eqvElems_iff l l' ih]
      simp
    | null => simp [eqv]
    | bool x => simp [eqv]
    | num x => simp [eqv]
    | str x => simp [eqv]
    | obj x => simp [eqv]
  | hobj f ih =>
    intro b
    cases b with
    | obj f' =>
      simp only [eqv]
      rw [eqvPairs_iff f f' ih]
      simp
    | null => simp [eqv]
    | bool x => simp [eqv]
    | num x => simp [eqv]
    | str x => simp [eqv]
    | arr x => simp [eqv]

instance : DecidableEq Json := fun a b =>
  decidable_of_iff (eqv a b = true) (eqv_iff a b)

/-- Python `dict.get(k)` on a JSON object's field list: the first binding
of the key, if any. -/
def lookup (fields : List (String × Json)) (k : String) : Option Json :=
  match fields with
  | [] => none
  | (k', v) :: rest => if k' = k then some v else lookup rest k

/-- Python `k in dict`. -/
def hasKey (fields : List (String × Json)) (k : String) : Bool :=
  (lookup fields k).isSome

end Json

/- ------------------------------------------------------------------ -/
/- `OKXAPIClient._determine_endpoint` (app/services/okx_api.py)        -/
/- ------------------------------------------------------------------ -/

/-- `OKXAPIClient._determine_endpoint`: choose the OKX endpoint and request
body from the message content.  Mirrors the `isinstance(content, dict)`
check and the two guarded branches; everything else falls through to the
read-only default. -/
def determineEndpoint (content : Json) : String × List (String × Json) :=
  match content with
  | Json.obj fields =>
    if Json.hasKey fields "instId" && Json.hasKey fields "side" && Json.hasKey fields "sz" then
      ("trade/order", fields)
    else if Json.hasKey fields "instId" &&
        (Json.lookup fields "type" == some (Json.str "market_data")) then
      ("market/ticker", [("instId", (Json.lookup fields "instId").getD Json.null)])
    else
      ("market/tickers", [("instId", Json.str "BTC-USDT")])
  | _ => ("market/tickers", [("instId", Json.str "BTC-USDT")])

/- ------------------------------------------------------------------ -/
/- `validate_webhook_signature` (app/main.py and api/index.py — the    -/
/- two copies are textually identical)                                 -/
/- ------------------------------------------------------------------ -/

/-- `validate_webhook_signature`: fail closed on an unconfigured secret or a
missing `x-vercel-signature` header, otherwise compare the header against
the hex HMAC-SHA1 of the raw body keyed by the secret.  The stdlib HMAC
primitive enters as the explicit function argument `hmacSha1Hex`
(secret, body ↦ hex digest); `hmac.compare_digest` is modelled by its
input/output behaviour, namely string equality. -/
def validateWebhookSignature (hmacSha1Hex : String → String → String)
    (secret : String) (signature : Option String) (bodyStr : String) : Bool :=
  if secret = "" then
    false
  else
    match signature with
    | none => false
    | some sig => sig == hmacSha1Hex secret bodyStr

/- ------------------------------------------------------------------ -/
/- Theorems for C2                                                     -/
/- ------------------------------------------------------------------ -/

/-- C2 counterexample: the claim says the single-ticker endpoint is chosen
*exactly when* content is an object with `instId` and `type = "market_data"`.
This content satisfies that condition yet routes to the order endpoint,
because the order branch (all of `instId`, `side`, `sz` present) is tested
first. -/
theorem c2_counterexample :
    (∃ fields,
      Json.obj [("instId", Json.str "BTC-USDT"), ("side", Json.str "buy"),
                ("sz", Json.str "1"), ("type", Json.str "market_data")] = Json.obj fields ∧
      Json.hasKey fields "instId" = true ∧
      Json.lookup fields "type" = some (Json.str "market_data")) ∧
    (determineEndpoint (Json.obj [("instId", Json.str "BTC-USDT"), ("side", Json.str "buy"),
      ("sz", Json.str "1"), ("type", Json.str "market_data")])).1 ≠ "market/ticker" ∧
    (determineEndpoint (Json.obj [("instId", Json.str "BTC-USDT"), ("side", Json.str "buy"),
      ("sz", Json.str "1"), ("type", Json.str "market_data")])).1 = "trade/order" := by
  refine ⟨⟨_, rfl, by decide, by decide⟩, by decide, by decide⟩

/-- Whether the content is an object containing all of `instId`, `side`, `sz`
(the guard of the order-placement branch). -/
def orderShape (content : Json) : Bool :=
  match content with
  | Json.obj fields =>
    Json.hasKey fields "instId" && Json.hasKey fields "side" && Json.hasKey fields "sz"
  | _ => false

/-- Whether the content is an object with `instId` and a `"market_data"` type
marker (the guard of the single-ticker branch, before branch ordering). -/
def tickerShape (content : Json) : Bool :=
  match content with
  | Json.obj fields =>
    Json.hasKey fields "instId" && (Json.lookup fields "type" == some (Json.str "market_data"))
  | _ => false

/-- C2 amended: endpoint routing is a pure function of the content shape, with
the branches tested in order.  The order endpoint is chosen exactly for
objects with all of `instId`, `side`, `sz` (body = the object itself); the
single-ticker endpoint exactly for objects with `instId` and
`type = "market_data"` that are *not* order-shaped (body = just the
instrument id); everything else — including every non-object — routes to the
read-only list-tickers endpoint with the hardcoded default instrument.  In
particular an unrecognized payload never routes to the order endpoint. -/
theorem c2_amended (content : Json) :
    ((determineEndpoint content).1 = "trade/order" ↔ orderShape content = true) ∧
    ((determineEndpoint content).1 = "market/ticker" ↔
      (tickerShape content = true ∧ orderShape content = false)) ∧
    (orderShape content = false → tickerShape content = false →
      determineEndpoint content = ("market/tickers", [("instId", Json.str "BTC-USDT")])) ∧
    (∀ fields, content = Json.obj fields → orderShape content = true →
      determineEndpoint content = ("trade/order", fields)) := by
  cases content with
  | obj fields =>
    by_cases h1 : (Json.hasKey fields "instId" && Json.hasKey fields "side" &&
        Json.hasKey fields "sz") = true
    · refine ⟨?_, ?_, ?_, ?_⟩
      · simp [determineEndpoint, orderShape, h1]
      · simp [determineEndpoint, orderShape, h1]
      · intro ho _; simp [orderShape, h1] at ho
      · intro fields' hf _
        injection hf with hf'
        subst hf'
        simp [determineEndpoint, h1]
    · by_cases h2 : (Json.hasKey fields "instId" &&
          (Json.lookup fields "type" == some (Json.str "market_data"))) = true
      · refine ⟨?_, ?_, ?_, ?_⟩
        · simp [determineEndpoint, orderShape, h1, h2]
        · simp [determineEndpoint, orderShape, tickerShape, h1, h2]
        · intro _ ht; simp [tickerShape, h2] at ht
        · intro fields' hf ho
          injection hf with hf'
          subst hf'
          simp [orderShape, h1] at ho
      · refine ⟨?_, ?_, ?_, ?_⟩
        · simp [determineEndpoint, orderShape, h1, h2]
        · simp [determineEndpoint, orderShape, tickerShape, h1, h2]
        · intro _ _; simp [determineEndpoint, h1, h2]
        · intro fields' hf ho
          injection hf with hf'
          subst hf'
          simp [orderShape, h1] at ho
  | null => exact ⟨by simp [determineEndpoint, orderShape],
      by simp [determineEndpoint, tickerShape], fun _ _ => rfl, by intro f hf; cases hf⟩
  | bool b => exact ⟨by simp [determineEndpoint, orderShape],
      by simp [determineEndpoint, tickerShape], fun _ _ => rfl, by intro f hf; cases hf⟩
  | num n => exact ⟨by simp [determineEndpoint, orderShape],
      by simp [determineEndpoint, tickerShape], fun _ _ => rfl, by intro f hf; cases hf⟩
  | str s => exact ⟨by simp [determineEndpoint, orderShape],
      by simp [determineEndpoint, tickerShape], fun _ _ => rfl, by intro f hf; cases hf⟩
  | arr l => exact ⟨by simp [determineEndpoint, orderShape],
      by simp [determineEndpoint, tickerShape], fun _ _ => rfl, by intro f hf; cases hf⟩

/-- Witness for `c2_amended`: instantiated at a content object carrying only
an instrument id, which routes to neither the order nor the ticker endpoint
and therefore falls through to the safe default. -/
theorem c2_amended_witness :
    determineEndpoint (Json.obj [("instId", Json.str "BTC-USDT")]) =
      ("market/tickers", [("instId", Json.str "BTC-USDT")]) :=
  (c2_amended (Json.obj [("instId", Json.str "BTC-USDT")])).2.2.1
    (by decide) (by decide)

/- ------------------------------------------------------------------ -/
/- Theorems for C3                                                     -/
/- ------------------------------------------------------------------ -/

/-- C3: signature verification fails closed.  For every HMAC primitive,
secret, header and raw body: verification returns `true` exactly when the
secret is non-empty, the signature header is present, and the header equals
the hex HMAC of the raw body keyed by the secret — independent of the body's
content.  (The constant-time nature of `hmac.compare_digest` is a timing
property outside the embedding; the comparison is modelled by its
input/output behaviour, equality.) -/
theorem c3_verification_fails_closed (hmacSha1Hex : String → String → String)
    (secret : String) (signature : Option String) (bodyStr : String) :
    validateWebhookSignature hmacSha1Hex secret signature bodyStr = true ↔
      (secret ≠ "" ∧ signature = some (hmacSha1Hex secret bodyStr)) := by
  unfold validateWebhookSignature
  constructor
  · intro h
    by_cases hs : secret = ""
    · simp [hs] at h
    · rw [if_neg hs] at h
      cases signature with
      | none => simp at h
      | some sig =>
        refine ⟨hs, ?_⟩
        have : sig = hmacSha1Hex secret bodyStr := eq_of_beq h
        rw [this]
  · rintro ⟨hs, rfl⟩
    rw [if_neg hs]
    exact beq_self_eq_true _

/-- Witness for `c3_verification_fails_closed`: with the HMAC primitive
instantiated by string concatenation, the matching signature verifies. -/
theorem c3_verification_fails_closed_witness :
    validateWebhookSignature (fun s b => s ++ b) "k" (some "kbody") "body" = true :=
  (c3_verification_fails_closed (fun s b => s ++ b) "k" (some "kbody") "body").2
    ⟨by decide, rfl⟩

/- ------------------------------------------------------------------ -/
/- `OKXAPIClient._make_request` (app/services/okx_api.py)              -/
/- ------------------------------------------------------------------ -/

/-- Outcome of one transport call made by `_make_request`, as seen by the
`try` block: a 2xx response with a parsed JSON body, an
`httpx.HTTPStatusError` raised by `raise_for_status` (carrying the status
code and the Python `str(e)` text), an `httpx.NetworkError`, or any other
exception. -/
inductive Outcome where
  | httpOk (result : List (String × Json))
  | statusErr (status : Nat) (e : String)
  | netErr (e : String)
  | otherErr (e : String)

/-- The `OKXAPIError` raised by `_make_request` / `forward_message`,
keeping the structure of the f-string that built its message. -/
inductive OKXErr where
  | httpError (s : String)
  | networkError (s : String)
  | requestFailed (s : String)
  | maxRetriesExceeded
  | forwardFailed (s : String)
  deriving DecidableEq

instance {e a : Type} [DecidableEq e] [DecidableEq a] : DecidableEq (Except e a) := fun x y =>
  match x, y with
  | Except.ok u, Except.ok v =>
    if h : u = v then isTrue (by rw [h]) else isFalse (by intro hc; injection hc; contradiction)
  | Except.error u, Except.error v =>
    if h : u = v then isTrue (by rw [h]) else isFalse (by intro hc; injection hc; contradiction)
  | Except.ok _, Except.error _ => isFalse (fun hc => by cases hc)
  | Except.error _, Except.ok _ => isFalse (fun hc => by cases hc)

/-- `str(e)` of a raised `OKXAPIError`, i.e. the exception's message. -/
def errMessage : OKXErr → String
  | OKXErr.httpError s => "HTTP error: " ++ s
  | OKXErr.networkError s => "Network error: " ++ s
  | OKXErr.requestFailed s => "Request failed: " ++ s
  | OKXErr.maxRetriesExceeded => "Max retries exceeded"
  | OKXErr.forwardFailed s => "Failed to forward message: " ++ s

mutual

/-- Python `repr()` of a JSON-parsed value (used by `str()` on containers).
String-escaping inside `repr` of a string is elided; no claim exercises it. -/
def pyRepr : Json → String
  | Json.null => "None"
  | Json.bool b => if b then "True" else "False"
  | Json.num n => toString n
  | Json.str s => "'" ++ s ++ "'"
  | Json.arr l => "[" ++ String.intercalate ", " (pyReprArr l) ++ "]"
  | Json.obj f => "\x7b" ++ String.intercalate ", " (pyReprObj f) ++ "\x7d"

/-- `repr` of each element of a JSON array. -/
def pyReprArr : List Json → List String
  | [] => []
  | x :: r => pyRepr x :: pyReprArr r

/-- `repr` of each binding of a JSON object. -/
def pyReprObj : List (String × Json) → List String
  | [] => []
  | (k, v) :: r => ("'" ++ k ++ "': " ++ pyRepr v) :: pyReprObj r

end

/-- Python `str()` of a JSON-parsed value, as interpolated by an f-string. -/
def pyStr : Json → String
  | Json.str s => s
  | v => pyRepr v

/-- `result.get('msg', 'Unknown error')` as interpolated into the
`OKX API Error:` f-string. -/
def getMsg (r : List (String × Json)) : String :=
  match Json.lookup r "msg" with
  | some v => pyStr v
  | none => "Unknown error"

/-- The `for attempt in range(max_retries)` loop of `_make_request`.

The transport is abstracted by the oracle `o`: `o attempt` is what the
`await self.client.request(...)` of that iteration produces.  `fuel` is the
number of loop iterations remaining (`makeRequest` starts it at
`maxRetries`, so the loop variable is `attempt` exactly as in the source);
exhausting it is the loop's fall-through into the final
`raise OKXAPIError("Max retries exceeded")`.

Per iteration, mirroring the source: a 2xx response returns the body when
its `code` field is the string `"0"`, otherwise raises an `OKXAPIError` —
which the trailing generic `except Exception` clause catches, retrying when
attempts remain and otherwise re-raising as `"Request failed: ..."`; an
HTTP status error retries only for 429 with attempts remaining and
otherwise raises `"HTTP error: ..."` immediately; a network error retries
when attempts remain and otherwise raises `"Network error: ..."`; any other
exception behaves like the generic clause.  The second component counts the
transport calls made. -/
def okxLoop (o : Nat → Outcome) (maxRetries attempt : Nat) :
    Nat → Except OKXErr (List (String × Json)) × Nat
  | 0 => (Except.error OKXErr.maxRetriesExceeded, 0)
  | fuel + 1 =>
    match o attempt with
    | Outcome.httpOk result =>
      if Json.lookup result "code" = some (Json.str "0") then
        (Except.ok result, 1)
      else if attempt < maxRetries - 1 then
        let r := okxLoop o maxRetries (attempt + 1) fuel
        (r.1, r.2 + 1)
      else
        (Except.error (OKXErr.requestFailed ("OKX API Error: " ++ getMsg result)), 1)
    | Outcome.statusErr status e =>
      if status = 429 ∧ attempt < maxRetries - 1 then
        let r := okxLoop o maxRetries (attempt + 1) fuel
        (r.1, r.2 + 1)
      else
        (Except.error (OKXErr.httpError e), 1)
    | Outcome.netErr e =>
      if attempt < maxRetries - 1 then
        let r := okxLoop o maxRetries (attempt + 1) fuel
        (r.1, r.2 + 1)
      else
        (Except.error (OKXErr.networkError e), 1)
    | Outcome.otherErr e =>
      if attempt < maxRetries - 1 then
        let r := okxLoop o maxRetries (attempt + 1) fuel
        (r.1, r.2 + 1)
      else
        (Except.error (OKXErr.requestFailed e), 1)

/-- `_make_request` with its retry mechanism (`max_retries` defaults to 3 at
the call site in `forward_message`).  Returns the outcome together with the
number of transport calls made. -/
def makeRequest (o : Nat → Outcome) (maxRetries : Nat) :
    Except OKXErr (List (String × Json)) × Nat :=
  okxLoop o maxRetries 0 maxRetries

/-- An inbound message after parsing (`app/models.py` `WebhookMessage`).
The `datetime` timestamp is modelled as integral seconds; the claims only
compare timestamps and format them through an explicit formatter. -/
structure WebhookMessage where
  sender : String
  content : Json
  timestamp : Int
  deriving DecidableEq

/-- Python `{**base, **extra}`: the keys of `base` in order, with values
overridden by `extra` where present, followed by the new keys of `extra`. -/
def pyMergeDict (base extra : List (String × Json)) : List (String × Json) :=
  base.map (fun kv =>
    match Json.lookup extra kv.1 with
    | some v' => (kv.1, v')
    | none => kv) ++
  extra.filter (fun kv => !(Json.hasKey base kv.1))

/-- `OKXAPIClient.forward_message`.  The ISO formatting of the timestamp is
abstracted by `isoFmt` (it only feeds the outbound body, which the transport
oracle abstracts).  A `None` message raises inside the `try`, and every
failure — including every `OKXAPIError` from `_make_request` — is re-raised
as `OKXAPIError("Failed to forward message: " + str(e))`. -/
def forwardMessage (o : Nat → Outcome) (isoFmt : Int → String)
    (message : Option WebhookMessage) :
    Except OKXErr (List (String × Json)) × Nat :=
  match message with
  | none => (Except.error (OKXErr.forwardFailed "Message cannot be None"), 0)
  | some m =>
    let ep := determineEndpoint m.content
    let _data := pyMergeDict ep.2
      [("timestamp", Json.str (isoFmt m.timestamp)), ("source", Json.str m.sender)]
    match makeRequest o 3 with
    | (Except.ok r, n) => (Except.ok r, n)
    | (Except.error e, n) => (Except.error (OKXErr.forwardFailed (errMessage e)), n)

/- ------------------------------------------------------------------ -/
/- `ErrorHandler.recover_from_error` (app/services/error_handler.py)   -/
/- ------------------------------------------------------------------ -/

/-- A raised failure, tagged by which of the `WebhookError` classes (or
neither) it is an instance of.  None of the four leaf classes is a subclass
of another; `webhookError` is a bare base-class instance and `otherError`
any unrelated exception. -/
inductive PyError where
  | validationError (msg : String)
  | networkError (msg : String)
  | apiError (msg : String)
  | securityError (msg : String)
  | webhookError (msg : String)
  | otherError (msg : String)
  deriving DecidableEq

/-- `ErrorHandler.recover_from_error`: the `isinstance` chain.  A
`NetworkError` yields a synthetic "cached" envelope, an `APIError` a
synthetic "fallback" envelope, anything else `None`. -/
def recoverFromError : PyError → Option (List (String × Json))
  | PyError.networkError _ =>
    some [("status", Json.str "cached"), ("message", Json.str "Using cached response")]
  | PyError.apiError _ =>
    some [("status", Json.str "fallback"), ("message", Json.str "Using fallback response")]
  | _ => none

/- ------------------------------------------------------------------ -/
/- `MessageFilter` (app/services/message_filter.py): required fields,  -/
/- length and freshness checks                                         -/
/- ------------------------------------------------------------------ -/

/-- Python truthiness of a JSON-parsed value. -/
def jsonTruthy : Json → Bool
  | Json.null => false
  | Json.bool b => b
  | Json.num n => n != 0
  | Json.str s => !(s = "")
  | Json.arr l => !l.isEmpty
  | Json.obj f => !f.isEmpty

/-- `self.max_message_age_minutes` set in `MessageFilter.__init__`. -/
def maxMessageAgeMinutes : Nat := 5

/-- `self.max_content_length` set in `MessageFilter.__init__`. -/
def maxContentLength : Nat := 1000

/-- `MessageFilter.validate_timestamp`: `datetime.now() - timestamp` must be
at most `timedelta(minutes=5)`.  Times are in seconds. -/
def validateTimestamp (now ts : Int) : Bool :=
  now - ts ≤ (maxMessageAgeMinutes : Int) * 60

/-- `MessageFilter.validate_message_format`: required-field truthiness in
order (`sender`, then `content`), the textual length cap, then the
freshness check.  (The surrounding `try/except` cannot fire in the model:
attribute access and comparison are total here.) -/
def validateMessageFormat (now : Int) (m : WebhookMessage) : Bool × Option String :=
  if m.sender = "" then
    (false, some "Missing required field: sender")
  else if jsonTruthy m.content = false then
    (false, some "Missing required field: content")
  else if (match m.content with
           | Json.str s => decide (s.length > maxContentLength)
           | _ => false) then
    (false, some ("Content exceeds maximum length of " ++ toString maxContentLength))
  else if validateTimestamp now m.timestamp = false then
    (false, some "Message is too old")
  else
    (true, none)

/- ------------------------------------------------------------------ -/
/- `ResponseHandler` (app/services/response_handler.py)                -/
/- ------------------------------------------------------------------ -/

/-- `self.sensitive_fields` from `ResponseHandler.__init__`, verbatim. -/
def sensitiveFields : List String :=
  ["key", "secret", "password", "token", "credential", "apiKey", "secretKey", "passphrase"]

/-- Whether `needle` is a prefix of `hay` (character lists). -/
def isPrefixOfList : List Char → List Char → Bool
  | [], _ => true
  | _ :: _, [] => false
  | a :: as, b :: bs => a == b && isPrefixOfList as bs

/-- Python `needle in hay` on strings, over character lists. -/
def containsSub : List Char → List Char → Bool
  | [], needle => needle.isEmpty
  | c :: t, needle => isPrefixOfList needle (c :: t) || containsSub t needle

/-- Python `needle in hay` on strings. -/
def strContains (hay needle : String) : Bool :=
  containsSub hay.data needle.data

/-- Python `str.lower()` for ASCII (the sensitive-field entries and all keys
the claims exercise are ASCII). -/
def lowerChar (c : Char) : Char :=
  match c with
  | 'A' => 'a' | 'B' => 'b' | 'C' => 'c' | 'D' => 'd' | 'E' => 'e' | 'F' => 'f'
  | 'G' => 'g' | 'H' => 'h' | 'I' => 'i' | 'J' => 'j' | 'K' => 'k' | 'L' => 'l'
  | 'M' => 'm' | 'N' => 'n' | 'O' => 'o' | 'P' => 'p' | 'Q' => 'q' | 'R' => 'r'
  | 'S' => 's' | 'T' => 't' | 'U' => 'u' | 'V' => 'v' | 'W' => 'w' | 'X' => 'x'
  | 'Y' => 'y' | 'Z' => 'z'
  | other => other

/-- `str.lower()` on a whole string. -/
def strLower (s : String) : String :=
  ⟨s.data.map lowerChar⟩

/-- The guard `any(sensitive in key.lower() for sensitive in self.sensitive_fields)`. -/
def isSensitiveKey (k : String) : Bool :=
  sensitiveFields.any (fun sf => strContains (strLower k) sf)

mutual

/-- `ResponseHandler.sanitize_response`: redact the value of any sensitive
key and otherwise rebuild the binding through the `elif` chain on the
value's type (`sanitizeValue`). -/
def sanitizeResponse : List (String × Json) → List (String × Json)
  | [] => []
  | (k, v) :: rest =>
    (if isSensitiveKey k then (k, Json.str "[REDACTED]")
     else (k, sanitizeValue v)) :: sanitizeResponse rest

/-- The `elif` chain of `sanitize_response` on a non-sensitive binding's
value: recurse into a dict value, map the list comprehension over a list
value, keep anything else as-is. -/
def sanitizeValue : Json → Json
  | Json.obj f => Json.obj (sanitizeResponse f)
  | Json.arr l => Json.arr (sanitizeItems l)
  | v => v

/-- The list comprehension inside `sanitize_response` for list values:
`sanitize_response(item) if isinstance(item, dict) else item` — only
elements that are themselves dicts are sanitized. -/
def sanitizeItems : List Json → List Json
  | [] => []
  | Json.obj f :: rest => Json.obj (sanitizeResponse f) :: sanitizeItems rest
  | x :: rest => x :: sanitizeItems rest

end

/-- The envelope built by `ResponseHandler.format_response`. -/
structure Envelope where
  timestamp : String
  request_id : String
  status : String
  sender : String
  processing_success : Bool
  processing_error_message : Option String
  okx_response : Option (List (String × Json))
  deriving DecidableEq

/-- `ResponseHandler.format_response`.  The process clock enters as the
pre-formatted `now` string (`datetime.now().isoformat()`) and Python's
string `hash` as the explicit `pyHash` argument; `request_id` is
`str(hash(f"{current_time}"))`.  The `error if error else None` and
`... if okx_response else None` expressions test Python truthiness, so an
empty error string and an empty response dict behave like absent ones. -/
def formatResponse (pyHash : String → Int) (now : String)
    (message : Option WebhookMessage)
    (okxResponse : Option (List (String × Json)))
    (success : Bool) (error : Option String) : Envelope :=
  { timestamp := now
    request_id := toString (pyHash now)
    status := if success then "success" else "error"
    sender := match message with
      | some m => m.sender
      | none => "unknown"
    processing_success := success
    processing_error_message := match error with
      | some e => if e = "" then none else some e
      | none => none
    okx_response := match okxResponse with
      | some r => if r = [] then none else some (sanitizeResponse r)
      | none => none }

/-- The `except OKXAPIError` branch of `webhook_handler` (app/main.py),
parameterized over the classified error handed to recovery (the handler
itself always wraps the failure as an `APIError`): attempt recovery, format
the response with `success = bool(recovery_response)`, and answer 200 on
recovery and 502 otherwise. -/
def handleForwardError (pyHash : String → Int) (now : String)
    (processedMessage : Option WebhookMessage) (e : PyError) (errStr : String) :
    Nat × Envelope :=
  let recovery := recoverFromError e
  let response := formatResponse pyHash now processedMessage recovery
    recovery.isSome (if recovery.isSome then none else some errStr)
  (if recovery.isSome then 200 else 502, response)

/- ------------------------------------------------------------------ -/
/- Theorems for C1                                                     -/
/- ------------------------------------------------------------------ -/

/-- C1 counterexample: the claim says a non-zero application-level response
code inside a successful HTTP response is not retried and propagates on the
attempt where it occurs (which would mean exactly one transport call).  With
every attempt answering a 2xx response whose body carries `code = "1"`, the
loop in fact makes all 3 calls — the `OKXAPIError` raised for the non-zero
code is caught by the trailing generic `except Exception` clause and
retried. -/
theorem c1_counterexample :
    (okxLoop (fun _ => Outcome.httpOk [("code", Json.str "1"), ("msg", Json.str "bad")])
      3 0 3).2 = 3 ∧
    ¬ (okxLoop (fun _ => Outcome.httpOk [("code", Json.str "1"), ("msg", Json.str "bad")])
      3 0 3).2 = 1 ∧
    (okxLoop (fun _ => Outcome.httpOk [("code", Json.str "1"), ("msg", Json.str "bad")])
      3 0 3).1 = Except.error (OKXErr.requestFailed "OKX API Error: bad") := by
  decide

/-- C1 amended: per iteration of the request loop, only a *non-429 HTTP
status error* propagates immediately (as an `"HTTP error"`-classified
`OKXAPIError`, after exactly one call of this iteration); network errors,
HTTP 429, other exceptions, *and* a non-zero application-level response code
inside a successful HTTP response are all retried while attempts remain; on
the final attempt the non-zero application code propagates as an API error
(`"Request failed: OKX API Error: ..."`). -/
theorem c1_amended (o : Nat → Outcome) (maxRetries attempt fuel : Nat) :
    (∀ st e, o attempt = Outcome.statusErr st e → st ≠ 429 →
      okxLoop o maxRetries attempt (fuel + 1) = (Except.error (OKXErr.httpError e), 1)) ∧
    (attempt < maxRetries - 1 →
      (∀ e, o attempt = Outcome.netErr e →
        okxLoop o maxRetries attempt (fuel + 1) =
          ((okxLoop o maxRetries (attempt + 1) fuel).1,
           (okxLoop o maxRetries (attempt + 1) fuel).2 + 1)) ∧
      (∀ e, o attempt = Outcome.statusErr 429 e →
        okxLoop o maxRetries attempt (fuel + 1) =
          ((okxLoop o maxRetries (attempt + 1) fuel).1,
           (okxLoop o maxRetries (attempt + 1) fuel).2 + 1)) ∧
      (∀ r, o attempt = Outcome.httpOk r → Json.lookup r "code" ≠ some (Json.str "0") →
        okxLoop o maxRetries attempt (fuel + 1) =
          ((okxLoop o maxRetries (attempt + 1) fuel).1,
           (okxLoop o maxRetries (attempt + 1) fuel).2 + 1)) ∧
      (∀ e, o attempt = Outcome.otherErr e →
        okxLoop o maxRetries attempt (fuel + 1) =
          ((okxLoop o maxRetries (attempt + 1) fuel).1,
           (okxLoop o maxRetries (attempt + 1) fuel).2 + 1))) ∧
    (¬ attempt < maxRetries - 1 →
      ∀ r, o attempt = Outcome.httpOk r → Json.lookup r "code" ≠ some (Json.str "0") →
        okxLoop o maxRetries attempt (fuel + 1) =
          (Except.error (OKXErr.requestFailed ("OKX API Error: " ++ getMsg r)), 1)) := by
  refine ⟨?_, ?_, ?_⟩
  · intro st e ho hst
    simp [okxLoop, ho, hst]
  · intro hlt
    refine ⟨?_, ?_, ?_, ?_⟩
    · intro e ho
      simp [okxLoop, ho, hlt]
    · intro e ho
      simp [okxLoop, ho, hlt]
    · intro r ho hcode
      simp [okxLoop, ho, hcode, hlt]
    · intro e ho
      simp [okxLoop, ho, hlt]
  · intro hge r ho hcode
    simp [okxLoop, ho, hcode, hge]

/-- Witness for `c1_amended`: a 500-status error on the first of three
attempts propagates immediately with a single call. -/
theorem c1_amended_witness :
    okxLoop (fun _ => Outcome.statusErr 500 "boom") 3 0 3 =
      (Except.error (OKXErr.httpError "boom"), 1) :=
  (c1_amended (fun _ => Outcome.statusErr 500 "boom") 3 0 2).1 500 "boom" rfl (by decide)

/- ------------------------------------------------------------------ -/
/- Theorems for C5                                                     -/
/- ------------------------------------------------------------------ -/

/-- An attempt outcome the loop treats as a retryable failure: network
error, HTTP 429, a non-zero application-level code, or any other
exception. -/
def retryableFailure : Outcome → Prop
  | Outcome.httpOk r => Json.lookup r "code" ≠ some (Json.str "0")
  | Outcome.statusErr st _ => st = 429
  | Outcome.netErr _ => True
  | Outcome.otherErr _ => True

theorem okxLoop_all_fail (o : Nat → Outcome) (maxRetries : Nat)
    (hf : ∀ i, retryableFailure (o i)) :
    ∀ fuel attempt, attempt + fuel = maxRetries → 1 ≤ fuel →
      (okxLoop o maxRetries attempt fuel).2 = fuel ∧
      ∃ err, (okxLoop o maxRetries attempt fuel).1 = Except.error err ∧
        err ≠ OKXErr.maxRetriesExceeded := by
  intro fuel
  induction fuel with
  | zero => intro attempt _ hpos; omega
  | succ f ih =>
    intro attempt hsum _
    have hfa := hf attempt
    rcases Nat.eq_zero_or_pos f with hf0 | hf1
    · subst hf0
      have hlt : ¬ attempt < maxRetries - 1 := by omega
      cases ho : o attempt with
      | httpOk r =>
        rw [ho] at hfa
        simp only [retryableFailure] at hfa
        refine ⟨by simp [okxLoop, ho, hfa, hlt], ?_⟩
        exact ⟨OKXErr.requestFailed ("OKX API Error: " ++ getMsg r),
          by simp [okxLoop, ho, hfa, hlt], fun hc => by cases hc⟩
      | statusErr st e =>
        rw [ho] at hfa
        simp only [retryableFailure] at hfa
        subst hfa
        refine ⟨by simp [okxLoop, ho, hlt], ?_⟩
        exact ⟨OKXErr.httpError e, by simp [okxLoop, ho, hlt], fun hc => by cases hc⟩
      | netErr e =>
        refine ⟨by simp [okxLoop, ho, hlt], ?_⟩
        exact ⟨OKXErr.networkError e, by simp [okxLoop, ho, hlt], fun hc => by cases hc⟩
      | otherErr e =>
        refine ⟨by simp [okxLoop, ho, hlt], ?_⟩
        exact ⟨OKXErr.requestFailed e, by simp [okxLoop, ho, hlt], fun hc => by cases hc⟩
    · have hlt : attempt < maxRetries - 1 := by omega
      have hrec := ih (attempt + 1) (by omega) hf1
      cases ho : o attempt with
      | httpOk r =>
        rw [ho] at hfa
        simp only [retryableFailure] at hfa
        refine ⟨by simp [okxLoop, ho, hfa, hlt, hrec.1], ?_⟩
        obtain ⟨err, herr, hne⟩ := hrec.2
        exact ⟨err, by simp [okxLoop, ho, hfa, hlt, herr], hne⟩
      | statusErr st e =>
        rw [ho] at hfa
        simp only [retryableFailure] at hfa
        subst hfa
        refine ⟨by simp [okxLoop, ho, hlt, hrec.1], ?_⟩
        obtain ⟨err, herr, hne⟩ := hrec.2
        exact ⟨err, by simp [okxLoop, ho, hlt, herr], hne⟩
      | netErr e =>
        refine ⟨by simp [okxLoop, ho, hlt, hrec.1], ?_⟩
        obtain ⟨err, herr, hne⟩ := hrec.2
        exact ⟨err, by simp [okxLoop, ho, hlt, herr], hne⟩
      | otherErr e =>
        refine ⟨by simp [okxLoop, ho, hlt, hrec.1], ?_⟩
        obtain ⟨err, herr, hne⟩ := hrec.2
        exact ⟨err, by simp [okxLoop, ho, hlt, herr], hne⟩

/-- C5 counterexample: with a remote call that fails with a network error on
every attempt, `forward` makes 3 calls but the raised error's message is
`"Failed to forward message: Network error: boom"` — the loop's final
`raise OKXAPIError("Max retries exceeded")` is dead code for positive
`max_retries`, because the last iteration of each failure path raises its
own specific error instead of falling through. -/
theorem c5_counterexample :
    (forwardMessage (fun _ => Outcome.netErr "boom") (fun _ => "t")
      (some ⟨"alice", Json.null, 0⟩)).2 = 3 ∧
    (forwardMessage (fun _ => Outcome.netErr "boom") (fun _ => "t")
      (some ⟨"alice", Json.null, 0⟩)).1 =
      Except.error (OKXErr.forwardFailed "Network error: boom") ∧
    errMessage (OKXErr.forwardFailed "Network error: boom") =
      "Failed to forward message: Network error: boom" ∧
    ¬ (forwardMessage (fun _ => Outcome.netErr "boom") (fun _ => "t")
      (some ⟨"alice", Json.null, 0⟩)).1 =
      Except.error (OKXErr.forwardFailed "Max retries exceeded") ∧
    errMessage (OKXErr.networkError "boom") ≠ "Max retries exceeded" := by
  decide

/-- C5 amended: (i) when every attempt fails with a *retryable* failure
(network error, HTTP 429, a non-zero application code, or another
exception), the loop makes exactly `max_retries` calls and raises an
`OKXAPIError` that is *not* the `"Max retries exceeded"` one — that final
raise is unreachable for positive `max_retries` (and is the result exactly
when `max_retries = 0`); (ii) a network failure on the first two attempts
followed by success yields the successful result after exactly 3 calls;
(iii) an HTTP 429 then a success yields the successful result after exactly
2 calls. -/
theorem c5_amended :
    (∀ (o : Nat → Outcome) (maxRetries : Nat), 1 ≤ maxRetries →
      (∀ i, retryableFailure (o i)) →
      (makeRequest o maxRetries).2 = maxRetries ∧
      ∃ err, (makeRequest o maxRetries).1 = Except.error err ∧
        err ≠ OKXErr.maxRetriesExceeded) ∧
    (∀ o : Nat → Outcome, makeRequest o 0 = (Except.error OKXErr.maxRetriesExceeded, 0)) ∧
    (∀ (o : Nat → Outcome) (isoFmt : Int → String) (m : WebhookMessage) r e1 e2,
      o 0 = Outcome.netErr e1 → o 1 = Outcome.netErr e2 → o 2 = Outcome.httpOk r →
      Json.lookup r "code" = some (Json.str "0") →
      forwardMessage o isoFmt (some m) = (Except.ok r, 3)) ∧
    (∀ (o : Nat → Outcome) (isoFmt : Int → String) (m : WebhookMessage) r e,
      o 0 = Outcome.statusErr 429 e → o 1 = Outcome.httpOk r →
      Json.lookup r "code" = some (Json.str "0") →
      forwardMessage o isoFmt (some m) = (Except.ok r, 2)) := by
  refine ⟨?_, ?_, ?_, ?_⟩
  · intro o maxRetries hpos hf
    exact okxLoop_all_fail o maxRetries hf maxRetries 0 (by omega) hpos
  · intro o
    rfl
  · intro o isoFmt m r e1 e2 h0 h1 h2 hcode
    simp [forwardMessage, makeRequest, okxLoop, h0, h1, h2, hcode]
  · intro o isoFmt m r e h0 h1 hcode
    simp [forwardMessage, makeRequest, okxLoop, h0, h1, hcode]

/-- Witness for `c5_amended`: an oracle failing with HTTP 429 on the first
attempt and succeeding on the second gives the successful result after
exactly two calls. -/
theorem c5_amended_witness :
    forwardMessage
      (fun i => if i = 0 then Outcome.statusErr 429 "rate" else Outcome.httpOk [("code", Json.str "0")])
      (fun _ => "t") (some ⟨"alice", Json.null, 0⟩) =
      (Except.ok [("code", Json.str "0")], 2) :=
  c5_amended.2.2.2
    (fun i => if i = 0 then Outcome.statusErr 429 "rate" else Outcome.httpOk [("code", Json.str "0")])
    (fun _ => "t") ⟨"alice", Json.null, 0⟩ [("code", Json.str "0")] "rate"
    rfl rfl (by decide)

/- ------------------------------------------------------------------ -/
/- Theorems for C6                                                     -/
/- ------------------------------------------------------------------ -/

/-- C6: error recovery is decided solely by the error's kind.  A
Network-classified error yields the synthetic "cached" success envelope, an
APIFailure-classified error the synthetic "fallback" success envelope, and
every other kind (Validation, Security, a bare `WebhookError`, or anything
unclassified) yields no recovery — in the handler's error branch the failure
then surfaces as a hard error: HTTP 502 with an `"error"`-status envelope
carrying the error message. -/
theorem c6_recovery (e : PyError) (pyHash : String → Int) (now : String)
    (msg : Option WebhookMessage) (errStr : String) (herr : errStr ≠ "") :
    ((∃ m, e = PyError.networkError m) →
      recoverFromError e =
        some [("status", Json.str "cached"), ("message", Json.str "Using cached response")] ∧
      (handleForwardError pyHash now msg e errStr).1 = 200 ∧
      (handleForwardError pyHash now msg e errStr).2.status = "success") ∧
    ((∃ m, e = PyError.apiError m) →
      recoverFromError e =
        some [("status", Json.str "fallback"), ("message", Json.str "Using fallback response")] ∧
      (handleForwardError pyHash now msg e errStr).1 = 200 ∧
      (handleForwardError pyHash now msg e errStr).2.status = "success") ∧
    ((∀ m, e ≠ PyError.networkError m ∧ e ≠ PyError.apiError m) →
      recoverFromError e = none ∧
      (handleForwardError pyHash now msg e errStr).1 = 502 ∧
      (handleForwardError pyHash now msg e errStr).2.status = "error" ∧
      (handleForwardError pyHash now msg e errStr).2.processing_error_message = some errStr) := by
  refine ⟨?_, ?_, ?_⟩
  · rintro ⟨m, rfl⟩
    refine ⟨rfl, rfl, rfl⟩
  · rintro ⟨m, rfl⟩
    refine ⟨rfl, rfl, rfl⟩
  · intro hother
    cases e with
    | networkError m => exact absurd rfl (hother m).1
    | apiError m => exact absurd rfl (hother m).2
    | validationError m =>
      exact ⟨rfl, rfl, rfl, by simp [handleForwardError, recoverFromError, formatResponse, herr]⟩
    | securityError m =>
      exact ⟨rfl, rfl, rfl, by simp [handleForwardError, recoverFromError, formatResponse, herr]⟩
    | webhookError m =>
      exact ⟨rfl, rfl, rfl, by simp [handleForwardError, recoverFromError, formatResponse, herr]⟩
    | otherError m =>
      exact ⟨rfl, rfl, rfl, by simp [handleForwardError, recoverFromError, formatResponse, herr]⟩

/-- Witness for `c6_recovery`: a Validation-classified error is not
recovered and surfaces as a 502 with an error-status envelope. -/
theorem c6_recovery_witness :
    recoverFromError (PyError.validationError "bad") = none ∧
    (handleForwardError (fun _ => 0) "t" none (PyError.validationError "bad") "oops").1 = 502 ∧
    (handleForwardError (fun _ => 0) "t" none (PyError.validationError "bad") "oops").2.status =
      "error" ∧
    (handleForwardError (fun _ => 0) "t" none
      (PyError.validationError "bad") "oops").2.processing_error_message = some "oops" :=
  (c6_recovery (PyError.validationError "bad") (fun _ => 0) "t" none "oops" (by decide)).2.2
    (fun m => ⟨(fun hc => PyError.noConfusion hc), (fun hc => PyError.noConfusion hc)⟩)

/- ------------------------------------------------------------------ -/
/- Theorems for C7                                                     -/
/- ------------------------------------------------------------------ -/

/-- C7: for a message passing the earlier checks (truthy sender and content,
content within the length cap), the freshness check rejects with exactly
`"Message is too old"` whenever the age `now - timestamp` exceeds the
5-minute window, and the age check passes whenever the age is at or under
the window. -/
theorem c7_freshness (now : Int) (m : WebhookMessage)
    (h1 : m.sender ≠ "") (h2 : jsonTruthy m.content = true)
    (h3 : ∀ s, m.content = Json.str s → s.length ≤ maxContentLength) :
    (now - m.timestamp > 5 * 60 →
      validateMessageFormat now m = (false, some "Message is too old")) ∧
    (now - m.timestamp ≤ 5 * 60 → validateTimestamp now m.timestamp = true) := by
  constructor
  · intro hage
    have hts : validateTimestamp now m.timestamp = false := by
      simp [validateTimestamp, maxMessageAgeMinutes]
      omega
    have hlen : (match m.content with
        | Json.str s => decide (s.length > maxContentLength)
        | _ => false) = false := by
      cases hc : m.content with
      | str s =>
        have := h3 s hc
        simp
        omega
      | null => rfl
      | bool b => rfl
      | num n => rfl
      | arr l => rfl
      | obj f => rfl
    simp [validateMessageFormat, h1, h2, hlen, hts]
  · intro hage
    simp [validateTimestamp, maxMessageAgeMinutes]
    omega

/-- Witness for `c7_freshness`: a message 301 seconds old is rejected as too
old. -/
theorem c7_freshness_witness :
    validateMessageFormat 301 ⟨"alice", Json.str "hello", 0⟩ =
      (false, some "Message is too old") :=
  (c7_freshness 301 ⟨"alice", Json.str "hello", 0⟩ (by decide) (by decide)
    (fun s hs => by cases hs; decide)).1 (by norm_num)

/- ------------------------------------------------------------------ -/
/- Theorems for C4                                                     -/
/- ------------------------------------------------------------------ -/

/-- C4 counterexample: the claim says sanitization recurses into mappings
nested at any depth inside sequences, such as a list inside a list.  It does
not: a mapping inside a nested list is passed through unchanged (the list
comprehension only sanitizes elements that are themselves dicts), so the
`apiKey` two sequence levels down survives unredacted — while the very same
binding at top level is redacted. -/
theorem c4_counterexample :
    sanitizeResponse [("a", Json.arr [Json.arr [Json.obj [("apiKey", Json.str "abc")]]])] =
      [("a", Json.arr [Json.arr [Json.obj [("apiKey", Json.str "abc")]]])] ∧
    sanitizeResponse [("apiKey", Json.str "abc")] = [("apiKey", Json.str "[REDACTED]")] := by
  decide

/-- C4 amended: sanitization redacts the value of any key whose lowercase
form contains one of the fixed sensitive substrings, regardless of value
type; it recurses into nested mappings, and inside sequences it sanitizes
exactly the elements that are themselves mappings — every non-mapping
sequence element, *including a nested sequence and everything inside it*,
passes through unchanged; all other keys keep their values (with containers
rebuilt by the same recursion).  For `{"apiKey": "abc", "orderId": "123"}`
the output has `apiKey` redacted and `orderId` unchanged. -/
theorem c4_amended :
    (∀ k v rest, isSensitiveKey k = true →
      sanitizeResponse ((k, v) :: rest) = (k, Json.str "[REDACTED]") :: sanitizeResponse rest) ∧
    (∀ k f rest, isSensitiveKey k = false →
      sanitizeResponse ((k, Json.obj f) :: rest) =
        (k, Json.obj (sanitizeResponse f)) :: sanitizeResponse rest) ∧
    (∀ k l rest, isSensitiveKey k = false →
      sanitizeResponse ((k, Json.arr l) :: rest) =
        (k, Json.arr (sanitizeItems l)) :: sanitizeResponse rest) ∧
    (∀ k v rest, isSensitiveKey k = false → (∀ f, v ≠ Json.obj f) → (∀ l, v ≠ Json.arr l) →
      sanitizeResponse ((k, v) :: rest) = (k, v) :: sanitizeResponse rest) ∧
    (∀ f rest, sanitizeItems (Json.obj f :: rest) =
      Json.obj (sanitizeResponse f) :: sanitizeItems rest) ∧
    (∀ x rest, (∀ f, x ≠ Json.obj f) → sanitizeItems (x :: rest) = x :: sanitizeItems rest) ∧
    sanitizeResponse [("apiKey", Json.str "abc"), ("orderId", Json.str "123")] =
      [("apiKey", Json.str "[REDACTED]"), ("orderId", Json.str "123")] := by
  refine ⟨?_, ?_, ?_, ?_, ?_, ?_, by decide⟩
  · intro k v rest hk
    simp [sanitizeResponse, hk]
  · intro k f rest hk
    simp [sanitizeResponse, sanitizeValue, hk]
  · intro k l rest hk
    simp [sanitizeResponse, sanitizeValue, hk]
  · intro k v rest hk hobj harr
    cases v with
    | obj f => exact absurd rfl (hobj f)
    | arr l => exact absurd rfl (harr l)
    | null => simp [sanitizeResponse, sanitizeValue, hk]
    | bool b => simp [sanitizeResponse, sanitizeValue, hk]
    | num n => simp [sanitizeResponse, sanitizeValue, hk]
    | str s => simp [sanitizeResponse, sanitizeValue, hk]
  · intro f rest
    simp [sanitizeItems]
  · intro x rest hx
    cases x with
    | obj f => exact absurd rfl (hx f)
    | null => simp [sanitizeItems]
    | bool b => simp [sanitizeItems]
    | num n => simp [sanitizeItems]
    | str s => simp [sanitizeItems]
    | arr l => simp [sanitizeItems]

/-- Witness for `c4_amended`: the sensitive binding `("secretKey", 42)` at
the head of a response is redacted (value type notwithstanding). -/
theorem c4_amended_witness :
    sanitizeResponse [("secretKey", Json.num 42)] =
      [("secretKey", Json.str "[REDACTED]")] := by
  have h := c4_amended.1 "secretKey" (Json.num 42) [] (by decide)
  rw [h]
  rfl

/- ------------------------------------------------------------------ -/
/- Theorems for C9                                                     -/
/- ------------------------------------------------------------------ -/

/-- C9 counterexample: the claim says `request_id` is derived from the
message's sender and timestamp, so two formatting calls on the same logical
message produce equal ids.  In fact `request_id = str(hash(current_time))`
depends only on the wall clock at formatting time: formatting the very same
message (sender `"alice"`, timestamp 0) at two different clock readings
yields different request ids (witnessed with `hash` instantiated by string
length). -/
theorem c9_counterexample :
    (formatResponse (fun s => (s.length : Int)) "a"
      (some ⟨"alice", Json.null, 0⟩) none true none).request_id ≠
    (formatResponse (fun s => (s.length : Int)) "aa"
      (some ⟨"alice", Json.null, 0⟩) none true none).request_id := by
  decide

/-- C9 amended: `request_id` is `str(hash(current_time))` — it is a function
of the formatting-time clock string alone.  Two formatting calls made at the
same clock reading produce equal request ids whatever their messages,
responses, flags or errors are; the message's sender and timestamp do not
enter the derivation. -/
theorem c9_amended (pyHash : String → Int) (now : String)
    (m1 m2 : Option WebhookMessage) (r1 r2 : Option (List (String × Json)))
    (s1 s2 : Bool) (e1 e2 : Option String) :
    (formatResponse pyHash now m1 r1 s1 e1).request_id =
      (formatResponse pyHash now m2 r2 s2 e2).request_id ∧
    (formatResponse pyHash now m1 r1 s1 e1).request_id = toString (pyHash now) :=
  ⟨rfl, rfl⟩

/- ------------------------------------------------------------------ -/
/- Theorems for C10                                                    -/
/- ------------------------------------------------------------------ -/

/-- C10: the `okx_response` field of the envelope is chosen by Python
truthiness of the upstream response (`sanitize_response(okx_response) if
okx_response else None`): an empty mapping behaves like an absent one and
yields `null`, while a non-empty mapping is passed through sanitization. -/
theorem c10_empty_response (pyHash : String → Int) (now : String)
    (m : Option WebhookMessage) (success : Bool) (error : Option String) :
    (formatResponse pyHash now m (some []) success error).okx_response = none ∧
    (∀ r : List (String × Json), r ≠ [] →
      (formatResponse pyHash now m (some r) success error).okx_response =
        some (sanitizeResponse r)) ∧
    (formatResponse pyHash now m none success error).okx_response = none := by
  refine ⟨rfl, ?_, rfl⟩
  intro r hr
  simp [formatResponse, hr]

/-- Witness for `c10_empty_response`: a one-binding response is sanitized
into the envelope. -/
theorem c10_empty_response_witness :
    (formatResponse (fun _ => 0) "t" none (some [("orderId", Json.str "1")]) true
      none).okx_response = some (sanitizeResponse [("orderId", Json.str "1")]) :=
  (c10_empty_response (fun _ => 0) "t" none true none).2.1
    [("orderId", Json.str "1")] (fun hc => by cases hc)

/- ------------------------------------------------------------------ -/
/- `MessageFilter.sanitize_content` (app/services/message_filter.py)   -/
/-                                                                     -/
/- The string case applies two `re.sub` calls in order:                -/
/-   re.sub(r'\b\d{4}[- ]?\d{4}[- ]?\d{4}[- ]?\d{4}\b', '[REDACTED]')  -/
/-   re.sub(r'[a-zA-Z0-9_-]{32,}', '[REDACTED]')                       -/
/- Both are embedded below over character lists.  The regex engine's   -/
/- leftmost search with backtracking is deterministic on these two     -/
/- patterns: in the first, every `[- ]?` that can consume a separator  -/
/- must (declining it puts a non-digit where `\d` is required), so a   -/
/- failed parse has no alternative; the second replaces each maximal   -/
/- run of its character class of length at least 32 (a shorter start   -/
/- could only come from inside such a run).  Word characters follow    -/
/- Python's `\w` on ASCII text (the character classes of both regexes  -/
/- are ASCII-only). -/
/- ------------------------------------------------------------------ -/

/-- Python regex `\w` (ASCII): letters, digits, underscore. -/
def isWordChar (c : Char) : Bool := c.isAlphanum || c == '_'

/-- The optional group separator `[- ]`. -/
def isSepChar (c : Char) : Bool := c == '-' || c == ' '

/-- The token-regex character class `[a-zA-Z0-9_-]`. -/
def isRunChar (c : Char) : Bool := c.isAlphanum || c == '_' || c == '-'

/-- The redaction marker `'[REDACTED]'` as a character list. -/
def redactedChars : List Char := ['[', 'R', 'E', 'D', 'A', 'C', 'T', 'E', 'D', ']']

/-- Consume `\d{4}`: four digits off the front, returning the rest. -/
def grab4 : List Char → Option (List Char)
  | a :: b :: c :: d :: r =>
    if a.isDigit && b.isDigit && c.isDigit && d.isDigit then some r else none
  | _ => none

/-- Consume `[- ]?\d{4}` greedily.  When a separator is present,
declining it would put the separator where `\d` is required, so the
greedy choice is the only possible one. -/
def sepGrab4 : List Char → Option (List Char)
  | [] => none
  | c :: r => if isSepChar c then grab4 r else grab4 (c :: r)

/-- Consume the card-number body `\d{4}([- ]?\d{4}){3}`. -/
def ccBody (s : List Char) : Option (List Char) :=
  (grab4 s).bind fun r1 =>
    (sepGrab4 r1).bind fun r2 =>
      (sepGrab4 r2).bind fun r3 => sepGrab4 r3

/-- The trailing `\b` after the body: the next character, if any, is not a
word character (the body always ends in a digit, a word character). -/
def boundaryAfter : List Char → Bool
  | [] => true
  | c :: _ => !isWordChar c

/-- A card-number match anchored at the front of `s` (the leading `\b` is the
caller's responsibility): the remainder after `\d{4}([- ]?\d{4}){3}\b`. -/
def matchCC (s : List Char) : Option (List Char) :=
  match ccBody s with
  | some rest => if boundaryAfter rest then some rest else none
  | none => none

theorem grab4_sound : ∀ {s r : List Char}, grab4 s = some r →
    ∃ a b c d, s = a :: b :: c :: d :: r ∧
      a.isDigit = true ∧ b.isDigit = true ∧ c.isDigit = true ∧ d.isDigit = true := by
  intro s r h
  match s with
  | a :: b :: c :: d :: t =>
    simp only [grab4] at h
    by_cases hd : (a.isDigit && b.isDigit && c.isDigit && d.isDigit) = true
    · rw [if_pos hd] at h
      injection h with h'
      subst h'
      simp only [Bool.and_eq_true] at hd
      exact ⟨a, b, c, d, rfl, hd.1.1.1, hd.1.1.2, hd.1.2, hd.2⟩
    · rw [if_neg hd] at h
      cases h
  | [] => cases h
  | [a] => cases h
  | [a, b] => cases h
  | [a, b, c] => cases h

theorem grab4_complete {a b c d : Char} {r : List Char}
    (ha : a.isDigit = true) (hb : b.isDigit = true) (hc : c.isDigit = true)
    (hd : d.isDigit = true) : grab4 (a :: b :: c :: d :: r) = some r := by
  simp [grab4, ha, hb, hc, hd]

theorem grab4_length {s r : List Char} (h : grab4 s = some r) :
    s.length = r.length + 4 := by
  obtain ⟨a, b, c, d, rfl, -⟩ := grab4_sound h
  simp

theorem sepGrab4_sound {s r : List Char} (h : sepGrab4 s = some r) :
    ∃ sep g, s = sep ++ g ++ r ∧
      (sep = [] ∨ ∃ c, sep = [c] ∧ isSepChar c = true) ∧
      (∃ a b c d, g = [a, b, c, d] ∧
        a.isDigit = true ∧ b.isDigit = true ∧ c.isDigit = true ∧ d.isDigit = true) := by
  match s with
  | [] => cases h
  | c :: t =>
    simp only [sepGrab4] at h
    by_cases hs : isSepChar c = true
    · rw [if_pos hs] at h
      obtain ⟨a, b, c', d, rfl, h1, h2, h3, h4⟩ := grab4_sound h
      exact ⟨[c], [a, b, c', d], by simp, Or.inr ⟨c, rfl, hs⟩,
        a, b, c', d, rfl, h1, h2, h3, h4⟩
    · rw [if_neg hs] at h
      obtain ⟨a, b, c', d, heq, h1, h2, h3, h4⟩ := grab4_sound h
      exact ⟨[], [a, b, c', d], by simp [heq], Or.inl rfl,
        a, b, c', d, rfl, h1, h2, h3, h4⟩

theorem digit_not_sep {c : Char} (h : c.isDigit = true) : isSepChar c = false := by
  rcases hs : isSepChar c with _ | _
  · rfl
  · exfalso
    simp only [isSepChar, Bool.or_eq_true, beq_iff_eq] at hs
    rcases hs with rfl | rfl <;> simp [Char.isDigit] at h

theorem sepGrab4_complete {sep g r : List Char}
    (hsep : sep = [] ∨ ∃ c, sep = [c] ∧ isSepChar c = true)
    (hg : ∃ a b c d, g = [a, b, c, d] ∧
      a.isDigit = true ∧ b.isDigit = true ∧ c.isDigit = true ∧ d.isDigit = true) :
    sepGrab4 (sep ++ g ++ r) = some r := by
  obtain ⟨a, b, c, d, rfl, h1, h2, h3, h4⟩ := hg
  rcases hsep with rfl | ⟨e, rfl, he⟩
  · simp only [List.nil_append, List.cons_append, sepGrab4]
    rw [if_neg (by simp [digit_not_sep h1]), grab4_complete h1 h2 h3 h4]
  · simp only [List.cons_append, List.nil_append, sepGrab4]
    rw [if_pos he]
    exact grab4_complete h1 h2 h3 h4

theorem sepGrab4_length {s r : List Char} (h : sepGrab4 s = some r) :
    r.length + 4 ≤ s.length := by
  obtain ⟨sep, g, rfl, hsep, a, b, c, d, rfl, -⟩ := sepGrab4_sound h
  rcases hsep with rfl | ⟨e, rfl, -⟩ <;> simp

theorem ccBody_length {s r : List Char} (h : ccBody s = some r) :
    r.length + 16 ≤ s.length := by
  simp only [ccBody, Option.bind_eq_some] at h
  obtain ⟨r1, h1, r2, h2, r3, h3, h4⟩ := h
  have := grab4_length h1
  have := sepGrab4_length h2
  have := sepGrab4_length h3
  have := sepGrab4_length h4
  omega

theorem matchCC_length {s r : List Char} (h : matchCC s = some r) :
    r.length < s.length := by
  unfold matchCC at h
  split at h
  next rest heq =>
    split at h
    · injection h with h'
      subst h'
      have := ccBody_length heq
      omega
    · cases h
  next heq => cases h

/-- The global substitution of the card-number regex
(`re.sub(r'\b\d{4}[- ]?\d{4}[- ]?\d{4}[- ]?\d{4}\b', '[REDACTED]', s)`):
scan left to right carrying whether the previous character is a word
character (`prev`, initially false at the start of the string — `\b` holds
at a position exactly when `prev` disagrees with the next character being a
word character, and the pattern starts with a digit).  At a position where
`\b` holds and the body matches with its trailing `\b`, emit the marker and
resume after the match (whose last character is a digit, so `prev` resumes
as true); otherwise copy one character. -/
def ccSub (prev : Bool) : List Char → List Char
  | [] => []
  | c :: r =>
    match h : matchCC (c :: r) with
    | some rest =>
      if prev then c :: ccSub (isWordChar c) r
      else redactedChars ++ ccSub true rest
    | none => c :: ccSub (isWordChar c) r
termination_by l => l.length
decreasing_by
  · simp
  · exact matchCC_length h
  · simp

/-- Whether the card-number regex matches anywhere in `s`, scanned with the
word-character status of the previous character in `prev`. -/
def hasCC : Bool → List Char → Bool
  | _, [] => false
  | prev, c :: r => (!prev && (matchCC (c :: r)).isSome) || hasCC (isWordChar c) r

theorem ccSub_nil (prev : Bool) : ccSub prev [] = [] := by
  unfold ccSub
  rfl

theorem ccSub_cons_replace {c : Char} {r rest : List Char}
    (h : matchCC (c :: r) = some rest) :
    ccSub false (c :: r) = redactedChars ++ ccSub true rest := by
  conv_lhs => unfold ccSub
  split
  next rest' heq =>
    rw [h] at heq
    injection heq with heq'
    subst heq'
    simp
  next heq => rw [h] at heq; cases heq

theorem ccSub_cons_copy {prev : Bool} {c : Char} {r : List Char}
    (h : prev = true ∨ matchCC (c :: r) = none) :
    ccSub prev (c :: r) = c :: ccSub (isWordChar c) r := by
  conv_lhs => unfold ccSub
  split
  next rest' heq =>
    rcases h with rfl | hnone
    · simp
    · rw [hnone] at heq; cases heq
  next heq => rfl

/-- The shape of one `\d{4}` group. -/
def IsGroup4 (g : List Char) : Prop :=
  ∃ a b c d, g = [a, b, c, d] ∧
    a.isDigit = true ∧ b.isDigit = true ∧ c.isDigit = true ∧ d.isDigit = true

/-- The shape of one `[- ]?` optional separator. -/
def IsSepOpt (s : List Char) : Prop :=
  s = [] ∨ ∃ c, s = [c] ∧ isSepChar c = true

/-- The shape of the whole card-number body `\d{4}([- ]?\d{4}){3}`. -/
def IsBody (b : List Char) : Prop :=
  ∃ g1 s1 g2 s2 g3 s3 g4, b = g1 ++ s1 ++ g2 ++ s2 ++ g3 ++ s3 ++ g4 ∧
    IsGroup4 g1 ∧ IsSepOpt s1 ∧ IsGroup4 g2 ∧ IsSepOpt s2 ∧
    IsGroup4 g3 ∧ IsSepOpt s3 ∧ IsGroup4 g4

theorem ccBody_sound {s rest : List Char} (h : ccBody s = some rest) :
    ∃ b, s = b ++ rest ∧ IsBody b := by
  simp only [ccBody, Option.bind_eq_some] at h
  obtain ⟨r1, h1, r2, h2, r3, h3, h4⟩ := h
  obtain ⟨a, b, c, d, rfl, d1, d2, d3, d4⟩ := grab4_sound h1
  obtain ⟨s1, g2, rfl, hs1, hg2⟩ := sepGrab4_sound h2
  obtain ⟨s2, g3, rfl, hs2, hg3⟩ := sepGrab4_sound h3
  obtain ⟨s3, g4, rfl, hs3, hg4⟩ := sepGrab4_sound h4
  refine ⟨[a, b, c, d] ++ s1 ++ g2 ++ s2 ++ g3 ++ s3 ++ g4, by simp, ?_⟩
  exact ⟨[a, b, c, d], s1, g2, s2, g3, s3, g4, rfl,
    ⟨a, b, c, d, rfl, d1, d2, d3, d4⟩, hs1, hg2, hs2, hg3, hs3, hg4⟩

theorem ccBody_complete {b z : List Char} (hb : IsBody b) :
    ccBody (b ++ z) = some z := by
  obtain ⟨g1, s1, g2, s2, g3, s3, g4, rfl, hg1, hs1, hg2, hs2, hg3, hs3, hg4⟩ := hb
  obtain ⟨a, b', c, d, rfl, d1, d2, d3, d4⟩ := hg1
  simp only [ccBody]
  have e1 : ([a, b', c, d] ++ s1 ++ g2 ++ s2 ++ g3 ++ s3 ++ g4) ++ z =
      a :: b' :: c :: d :: (s1 ++ (g2 ++ (s2 ++ (g3 ++ (s3 ++ (g4 ++ z)))))) := by
    simp
  rw [e1, grab4_complete d1 d2 d3 d4]
  have e2 : s1 ++ (g2 ++ (s2 ++ (g3 ++ (s3 ++ (g4 ++ z))))) =
      s1 ++ g2 ++ (s2 ++ (g3 ++ (s3 ++ (g4 ++ z)))) := by simp
  rw [Option.some_bind, e2, sepGrab4_complete hs1 hg2]
  have e3 : s2 ++ (g3 ++ (s3 ++ (g4 ++ z))) = s2 ++ g3 ++ (s3 ++ (g4 ++ z)) := by simp
  rw [Option.some_bind, e3, sepGrab4_complete hs2 hg3]
  have e4 : s3 ++ (g4 ++ z) = s3 ++ g4 ++ z := by simp
  rw [Option.some_bind, e4, sepGrab4_complete hs3 hg4]

theorem IsBody_length {b : List Char} (hb : IsBody b) : 16 ≤ b.length := by
  obtain ⟨g1, s1, g2, s2, g3, s3, g4, rfl, hg1, hs1, hg2, hs2, hg3, hs3, hg4⟩ := hb
  obtain ⟨a1, b1, c1, e1, rfl, -⟩ := hg1
  obtain ⟨a2, b2, c2, e2, rfl, -⟩ := hg2
  obtain ⟨a3, b3, c3, e3, rfl, -⟩ := hg3
  obtain ⟨a4, b4, c4, e4, rfl, -⟩ := hg4
  simp
  omega

theorem IsBody_chars {b : List Char} (hb : IsBody b) :
    ∀ x ∈ b, x.isDigit = true ∨ isSepChar x = true := by
  obtain ⟨g1, s1, g2, s2, g3, s3, g4, rfl, hg1, hs1, hg2, hs2, hg3, hs3, hg4⟩ := hb
  intro x hx
  simp only [List.mem_append] at hx
  obtain ⟨a1, b1, c1, e1, rfl, d1, d2, d3, d4⟩ := hg1
  obtain ⟨a2, b2, c2, e2, rfl, f1, f2, f3, f4⟩ := hg2
  obtain ⟨a3, b3, c3, e3, rfl, k1, k2, k3, k4⟩ := hg3
  obtain ⟨a4, b4, c4, e4, rfl, m1, m2, m3, m4⟩ := hg4
  rcases hx with ((((((h | h) | h) | h) | h) | h) | h)
  · simp only [List.mem_cons, List.not_mem_nil, or_false] at h
    rcases h with rfl | rfl | rfl | rfl <;> simp [d1, d2, d3, d4]
  · rcases hs1 with rfl | ⟨c, rfl, hc⟩
    · cases h
    · simp only [List.mem_singleton] at h
      subst h
      exact Or.inr hc
  · simp only [List.mem_cons, List.not_mem_nil, or_false] at h
    rcases h with rfl | rfl | rfl | rfl <;> simp [f1, f2, f3, f4]
  · rcases hs2 with rfl | ⟨c, rfl, hc⟩
    · cases h
    · simp only [List.mem_singleton] at h
      subst h
      exact Or.inr hc
  · simp only [List.mem_cons, List.not_mem_nil, or_false] at h
    rcases h with rfl | rfl | rfl | rfl <;> simp [k1, k2, k3, k4]
  · rcases hs3 with rfl | ⟨c, rfl, hc⟩
    · cases h
    · simp only [List.mem_singleton] at h
      subst h
      exact Or.inr hc
  · simp only [List.mem_cons, List.not_mem_nil, or_false] at h
    rcases h with rfl | rfl | rfl | rfl <;> simp [m1, m2, m3, m4]

theorem IsBody_last_digit {b : List Char} (hb : IsBody b) :
    ∃ d, b.getLast? = some d ∧ d.isDigit = true := by
  obtain ⟨g1, s1, g2, s2, g3, s3, g4, rfl, hg1, hs1, hg2, hs2, hg3, hs3, hg4⟩ := hb
  obtain ⟨a4, b4, c4, e4, rfl, m1, m2, m3, m4⟩ := hg4
  refine ⟨e4, ?_, m4⟩
  have : g1 ++ s1 ++ g2 ++ s2 ++ g3 ++ s3 ++ [a4, b4, c4, e4] =
      (g1 ++ s1 ++ g2 ++ s2 ++ g3 ++ s3 ++ [a4, b4, c4]) ++ [e4] := by simp
  rw [this, List.getLast?_concat]

theorem word_of_digit {c : Char} (h : c.isDigit = true) : isWordChar c = true := by
  simp [isWordChar, Char.isAlphanum, h]

theorem not_digit_of_not_word {c : Char} (h : isWordChar c = false) :
    c.isDigit = false := by
  rcases hd : c.isDigit with _ | _
  · rfl
  · rw [word_of_digit hd] at h
    cases h

theorem grab4_none_not_digit {c : Char} {t : List Char} (h : c.isDigit = false) :
    grab4 (c :: t) = none := by
  match t with
  | [] => rfl
  | [a] => rfl
  | [a, b] => rfl
  | a :: b :: d :: t' =>
    simp only [grab4, h]
    rfl

theorem matchCC_none_not_digit {c : Char} {t : List Char} (h : c.isDigit = false) :
    matchCC (c :: t) = none := by
  simp [matchCC, ccBody, grab4_none_not_digit h]

theorem matchCC_sound {s rest : List Char} (h : matchCC s = some rest) :
    ∃ b, s = b ++ rest ∧ IsBody b ∧ boundaryAfter rest = true := by
  unfold matchCC at h
  split at h
  next rest' heq =>
    split at h
    next hba =>
      injection h with h'
      subst h'
      obtain ⟨b, rfl, hb⟩ := ccBody_sound heq
      exact ⟨b, rfl, hb, hba⟩
    · cases h
  next heq => cases h

theorem matchCC_complete {b z : List Char} (hb : IsBody b)
    (hz : boundaryAfter z = true) : matchCC (b ++ z) = some z := by
  simp [matchCC, ccBody_complete hb, hz]

/-- The scanner state under which a replacement can begin after copying the
characters of `a` starting from state `w`: the last copied character (or the
initial state when none) is not a word character, i.e. `\b` holds before the
next character when it is a digit. -/
def prevOK (w : Bool) (a : List Char) : Prop :=
  match a.getLast? with
  | none => w = false
  | some l => isWordChar l = false

theorem prevOK_cons {w : Bool} {c : Char} {a : List Char}
    (h : prevOK (isWordChar c) a) : prevOK w (c :: a) := by
  unfold prevOK at h ⊢
  cases a with
  | nil =>
    simp only [List.getLast?_nil] at h
    simp [List.getLast?_singleton, h]
  | cons x t =>
    have e : (c :: x :: t).getLast? = (x :: t).getLast? := by
      simp [List.getLast?_cons_cons]
    rw [e]
    exact h

theorem ccSub_decomp : ∀ (r : List Char) (w : Bool), ccSub w r = r ∨
    ∃ a m rest, r = a ++ m ++ rest ∧
      ccSub w r = a ++ redactedChars ++ ccSub true rest ∧
      matchCC (m ++ rest) = some rest ∧ prevOK w a := by
  intro r
  induction r with
  | nil => intro w; exact Or.inl (ccSub_nil w)
  | cons c r' ih =>
    intro w
    rcases hm : matchCC (c :: r') with _ | rest
    · rcases ih (isWordChar c) with hid | ⟨a', m, rest, heq, hsub, hmm, hok⟩
      · exact Or.inl (by rw [ccSub_cons_copy (Or.inr hm), hid])
      · refine Or.inr ⟨c :: a', m, rest, by simp [heq], ?_, hmm, prevOK_cons hok⟩
        rw [ccSub_cons_copy (Or.inr hm), hsub]
        simp
    · cases w with
      | true =>
        rcases ih (isWordChar c) with hid | ⟨a', m, rest', heq, hsub, hmm, hok⟩
        · exact Or.inl (by rw [ccSub_cons_copy (Or.inl rfl), hid])
        · refine Or.inr ⟨c :: a', m, rest', by simp [heq], ?_, hmm, prevOK_cons hok⟩
          rw [ccSub_cons_copy (Or.inl rfl), hsub]
          simp
      | false =>
        obtain ⟨b, hbr, hb, hba⟩ := matchCC_sound hm
        refine Or.inr ⟨[], b, rest, by simpa using hbr, ?_, ?_, ?_⟩
        · rw [ccSub_cons_replace hm]
          simp
        · rw [← hbr]
          exact hm
        · unfold prevOK
          simp

/-- The crossing lemma: replacing matches further right never creates a
match at the current position.  If the card-number regex does not match at
the head of `c :: r`, it does not match at the head of `c :: ccSub w r`
either: a match in the substituted list would have to lie inside the
unchanged prefix (then it already matched in the original, with its trailing
boundary given by the same unchanged character), swallow the `[` of a
marker (not a digit or separator, so not a body character), or end exactly
where a replacement began (impossible: the replacement site required a
non-word character before it, but the match puts a digit there). -/
theorem matchCC_ccSub_none {c : Char} {r : List Char} (w : Bool)
    (h : matchCC (c :: r) = none) : matchCC (c :: ccSub w r) = none := by
  rcases hm : matchCC (c :: ccSub w r) with _ | rest'
  · rfl
  exfalso
  obtain ⟨b, hbr, hb, hba⟩ := matchCC_sound hm
  obtain ⟨bhd, bt, rfl⟩ : ∃ bhd bt, b = bhd :: bt := by
    cases b with
    | nil => have := IsBody_length hb; simp at this
    | cons x t => exact ⟨x, t, rfl⟩
  have hc : bhd = c := by
    have := congrArg (fun l => List.head? l) hbr
    simpa using this.symm
  subst hc
  have hT : ccSub w r = bt ++ rest' := by
    have := congrArg List.tail hbr
    simpa using this
  rcases ccSub_decomp r w with hid | ⟨a, m, rest0, hra, hsub, hmm, hok⟩
  · -- no replacement at all: the match was already in the original
    rw [hid] at hT
    subst hT
    have hco := matchCC_complete hb hba
    simp only [List.cons_append] at hco
    rw [hco] at h
    cases h
  · rw [hsub, List.append_assoc] at hT
    -- a ++ (marker ++ tail) = bt ++ rest'
    have hboundary_case : bt = a → False := by
      -- the match ends exactly where the replacement began
      intro hbta
      subst hbta
      obtain ⟨d, hd, hdd⟩ := IsBody_last_digit hb
      unfold prevOK at hok
      cases hbt : bt with
      | nil =>
        subst hbt
        have := IsBody_length hb
        simp at this
      | cons x t =>
        rw [hbt] at hd hok
        have e : (bhd :: x :: t).getLast? = (x :: t).getLast? := by
          simp [List.getLast?_cons_cons]
        rw [e] at hd
        rw [hd] at hok
        have hok' : isWordChar d = false := hok
        rw [word_of_digit hdd] at hok'
        cases hok'
    rcases List.append_eq_append_iff.mp hT with ⟨t, hbt, hrt⟩ | ⟨t, hat, hrt⟩
    · -- bt = a ++ t: either t = [] (boundary case) or the match swallows '['
      cases t with
      | nil =>
        rw [List.append_nil] at hbt
        exact hboundary_case hbt
      | cons thd tt =>
        have hthd : thd = '[' := by
          have := congrArg List.head? hrt
          simpa [redactedChars] using this.symm
        subst hthd
        have hmem : '[' ∈ (bhd :: bt) := by
          rw [hbt]
          simp
        rcases IsBody_chars hb '[' hmem with hdig | hsep
        · simp [Char.isDigit] at hdig
        · simp [isSepChar] at hsep
    · -- a = bt ++ t: either t = [] (boundary case) or the match ends inside a
      cases t with
      | nil =>
        rw [List.append_nil] at hat
        exact hboundary_case hat.symm
      | cons thd tt =>
        have hhead : isWordChar thd = false := by
          rw [hrt] at hba
          simpa [boundaryAfter] using hba
        have hcr : bhd :: r = (bhd :: bt) ++ ((thd :: tt) ++ m ++ rest0) := by
          rw [hra, hat]
          simp
        have hco := matchCC_complete hb
          (show boundaryAfter ((thd :: tt) ++ m ++ rest0) = true by
            simp [boundaryAfter, hhead])
        rw [← hcr] at hco
        rw [hco] at h
        cases h

theorem hasCC_congr_prev {c : Char} {r : List Char} (h : c.isDigit = false)
    (p q : Bool) : hasCC p (c :: r) = hasCC q (c :: r) := by
  simp [hasCC, matchCC_none_not_digit h]

theorem hasCC_red_append (p : Bool) (X : List Char) :
    hasCC p (redactedChars ++ X) = hasCC false X := by
  have e : ∀ (q : Bool) (c : Char) (t : List Char), c.isDigit = false →
      hasCC q (c :: t) = hasCC (isWordChar c) t := by
    intro q c t hc
    simp [hasCC, matchCC_none_not_digit hc]
  simp only [redactedChars, List.cons_append, List.nil_append]
  rw [e p '[' _ (by decide), e _ 'R' _ (by decide), e _ 'E' _ (by decide),
      e _ 'D' _ (by decide), e _ 'A' _ (by decide), e _ 'C' _ (by decide),
      e _ 'T' _ (by decide), e _ 'E' _ (by decide), e _ 'D' _ (by decide),
      e _ ']' _ (by decide)]
  have w : isWordChar ']' = false := by decide
  rw [w]

theorem ccSub_of_not_hasCC : ∀ {s : List Char} {prev : Bool},
    hasCC prev s = false → ccSub prev s = s := by
  intro s
  induction s with
  | nil => intro prev _; exact ccSub_nil prev
  | cons c r ih =>
    intro prev h
    have h' : (!prev && (matchCC (c :: r)).isSome) = false ∧
        hasCC (isWordChar c) r = false := by
      have : ((!prev && (matchCC (c :: r)).isSome) || hasCC (isWordChar c) r) = false := h
      simpa using this
    cases prev with
    | true => rw [ccSub_cons_copy (Or.inl rfl), ih h'.2]
    | false =>
      have hsome : (matchCC (c :: r)).isSome = false := by simpa using h'.1
      have hnone : matchCC (c :: r) = none := by
        rcases hx : matchCC (c :: r) with _ | v
        · rfl
        · rw [hx] at hsome; cases hsome
      rw [ccSub_cons_copy (Or.inr hnone), ih h'.2]

theorem hasCC_ccSub : ∀ (s : List Char) (prev : Bool),
    hasCC prev (ccSub prev s) = false := by
  have H : ∀ (n : Nat) (s : List Char) (prev : Bool), s.length ≤ n →
      hasCC prev (ccSub prev s) = false := by
    intro n
    induction n using Nat.strong_induction_on with
    | _ n ih =>
      intro s prev hlen
      cases s with
      | nil => rw [ccSub_nil]; rfl
      | cons c r =>
        have hrn : r.length < n := by
          simp only [List.length_cons] at hlen
          omega
        rcases hm : matchCC (c :: r) with _ | rest
        · rw [ccSub_cons_copy (Or.inr hm)]
          have : hasCC prev (c :: ccSub (isWordChar c) r) =
              ((!prev && (matchCC (c :: ccSub (isWordChar c) r)).isSome) ||
                hasCC (isWordChar c) (ccSub (isWordChar c) r)) := rfl
          rw [this, matchCC_ccSub_none _ hm]
          simp only [Option.isSome_none, Bool.and_false, Bool.false_or]
          exact ih r.length hrn r (isWordChar c) (le_refl _)
        · cases prev with
          | true =>
            rw [ccSub_cons_copy (Or.inl rfl)]
            have : hasCC true (c :: ccSub (isWordChar c) r) =
                ((!true && (matchCC (c :: ccSub (isWordChar c) r)).isSome) ||
                  hasCC (isWordChar c) (ccSub (isWordChar c) r)) := rfl
            rw [this]
            simp only [Bool.not_true, Bool.false_and, Bool.false_or]
            exact ih r.length hrn r (isWordChar c) (le_refl _)
          | false =>
            rw [ccSub_cons_replace hm, hasCC_red_append]
            have hrest : rest.length < n := by
              have := matchCC_length hm
              simp only [List.length_cons] at this hlen
              omega
            have hIH : hasCC true (ccSub true rest) = false :=
              ih rest.length hrest rest true (le_refl _)
            cases rest with
            | nil => rw [ccSub_nil]; rfl
            | cons hd t =>
              obtain ⟨b, hbr, hb, hba⟩ := matchCC_sound hm
              have hhd : isWordChar hd = false := by
                simpa [boundaryAfter] using hba
              have hdig := not_digit_of_not_word hhd
              rw [ccSub_cons_copy (Or.inl rfl)] at hIH ⊢
              rw [hasCC_congr_prev hdig false true]
              exact hIH
  exact fun s prev => H s.length s prev (le_refl _)

/-- The card-number substitution is idempotent: its output contains no
match of the card-number pattern, so a second pass copies it unchanged. -/
theorem ccSub_idem (s : List Char) :
    ccSub false (ccSub false s) = ccSub false s :=
  ccSub_of_not_hasCC (hasCC_ccSub s false)

theorem dropWhile_length_le {p : Char → Bool} : ∀ (l : List Char),
    (l.dropWhile p).length ≤ l.length := by
  intro l
  induction l with
  | nil => simp
  | cons c r ih =>
    rcases hc : p c with _ | _
    · simp [List.dropWhile_cons, hc]
    · simp only [List.dropWhile_cons, hc, if_true, List.length_cons]
      omega

/-- The global substitution of the API-key token regex
(`re.sub(r'[a-zA-Z0-9_-]{32,}', '[REDACTED]', s)`): each maximal run of the
class of length at least 32 is replaced wholly by the marker (the leftmost
match starts at the run's start, and greediness extends it to the run's
end); shorter runs and other characters are copied. -/
def runSub : List Char → List Char
  | [] => []
  | c :: r =>
    if h : isRunChar c = true then
      (if 32 ≤ ((c :: r).takeWhile isRunChar).length then redactedChars
       else (c :: r).takeWhile isRunChar) ++ runSub ((c :: r).dropWhile isRunChar)
    else c :: runSub r
termination_by l => l.length
decreasing_by
  · simp only [List.dropWhile_cons, h, if_true, List.length_cons]
    have := dropWhile_length_le (p := isRunChar) r
    omega
  · simp

theorem runSub_nil : runSub [] = [] := by
  unfold runSub
  rfl

theorem runSub_cons_not_run {c : Char} {r : List Char} (h : isRunChar c = false) :
    runSub (c :: r) = c :: runSub r := by
  conv_lhs => unfold runSub
  rw [dif_neg (by simp [h])]

theorem runSub_cons_run {c : Char} {r : List Char} (h : isRunChar c = true) :
    runSub (c :: r) =
      (if 32 ≤ ((c :: r).takeWhile isRunChar).length then redactedChars
       else (c :: r).takeWhile isRunChar) ++ runSub ((c :: r).dropWhile isRunChar) := by
  conv_lhs => unfold runSub
  rw [dif_pos h]

theorem takeWhile_all_append {p : Char → Bool} : ∀ (u v : List Char),
    (∀ x ∈ u, p x = true) → (v = [] ∨ ∃ c t, v = c :: t ∧ p c = false) →
    (u ++ v).takeWhile p = u ∧ (u ++ v).dropWhile p = v := by
  intro u
  induction u with
  | nil =>
    intro v _ hv
    rcases hv with rfl | ⟨c, t, rfl, hc⟩
    · simp
    · simp [List.takeWhile_cons, List.dropWhile_cons, hc]
  | cons x u' ih =>
    intro v hall hv
    have hx : p x = true := hall x (by simp)
    have := ih v (fun y hy => hall y (by simp [hy])) hv
    simp [List.takeWhile_cons, List.dropWhile_cons, hx, this.1, this.2]

theorem runSub_run_append {u v : List Char} (hu : u ≠ [])
    (hall : ∀ x ∈ u, isRunChar x = true)
    (hv : v = [] ∨ ∃ c t, v = c :: t ∧ isRunChar c = false) :
    runSub (u ++ v) = (if 32 ≤ u.length then redactedChars else u) ++ runSub v := by
  obtain ⟨c, u', rfl⟩ : ∃ c u', u = c :: u' := by
    cases u with
    | nil => exact absurd rfl hu
    | cons c u' => exact ⟨c, u', rfl⟩
  have htw := takeWhile_all_append (c :: u') v hall hv
  rw [List.cons_append, runSub_cons_run (hall c (by simp))]
  rw [← List.cons_append, htw.1, htw.2]

theorem runChar_of_digit {c : Char} (h : c.isDigit = true) : isRunChar c = true := by
  simp [isRunChar, Char.isAlphanum, h]

theorem not_digit_of_not_run {c : Char} (h : isRunChar c = false) :
    c.isDigit = false := by
  rcases hd : c.isDigit with _ | _
  · rfl
  · rw [runChar_of_digit hd] at h
    cases h

theorem dropWhile_head_not {p : Char → Bool} : ∀ (l : List Char),
    l.dropWhile p = [] ∨ ∃ c t, l.dropWhile p = c :: t ∧ p c = false := by
  intro l
  induction l with
  | nil => exact Or.inl rfl
  | cons c r ih =>
    rcases hc : p c with _ | _
    · exact Or.inr ⟨c, r, by simp [List.dropWhile_cons, hc], hc⟩
    · simpa [List.dropWhile_cons, hc] using ih

theorem takeWhile_cons_ne_nil {c : Char} {r : List Char} (h : isRunChar c = true) :
    (c :: r).takeWhile isRunChar ≠ [] := by
  simp [List.takeWhile_cons, h]

theorem takeWhile_dropWhile_length {c : Char} {r : List Char} (h : isRunChar c = true) :
    ((c :: r).dropWhile isRunChar).length < (c :: r).length := by
  have h1 := congrArg List.length
    (List.takeWhile_append_dropWhile (p := isRunChar) (l := c :: r))
  simp only [List.length_append] at h1
  have h2 : 0 < ((c :: r).takeWhile isRunChar).length :=
    List.length_pos.mpr (takeWhile_cons_ne_nil h)
  simp only [List.length_cons] at h1 ⊢
  omega

theorem runSub_idem : ∀ (s : List Char), runSub (runSub s) = runSub s := by
  have H : ∀ (n : Nat) (s : List Char), s.length ≤ n → runSub (runSub s) = runSub s := by
    intro n
    induction n using Nat.strong_induction_on with
    | _ n ih =>
      intro s hlen
      cases s with
      | nil => rw [runSub_nil, runSub_nil]
      | cons c r =>
        rcases hc : isRunChar c with _ | _
        · have hr : r.length < n := by
            simp only [List.length_cons] at hlen
            omega
          rw [runSub_cons_not_run hc, runSub_cons_not_run hc,
            ih r.length hr r (le_refl _)]
        · have hall : ∀ x ∈ (c :: r).takeWhile isRunChar, isRunChar x = true :=
            fun x hx => List.mem_takeWhile_imp hx
          have hdlen : ((c :: r).dropWhile isRunChar).length < n := by
            have := takeWhile_dropWhile_length (r := r) hc
            simp only [List.length_cons] at this hlen
            omega
          have ihX : runSub (runSub ((c :: r).dropWhile isRunChar)) =
              runSub ((c :: r).dropWhile isRunChar) :=
            ih _ hdlen _ (le_refl _)
          have hXv : runSub ((c :: r).dropWhile isRunChar) = [] ∨
              ∃ d t, runSub ((c :: r).dropWhile isRunChar) = d :: t ∧ isRunChar d = false := by
            rcases dropWhile_head_not (p := isRunChar) (c :: r) with hnil | ⟨d, t, hdt, hd⟩
            · left; rw [hnil, runSub_nil]
            · right; exact ⟨d, runSub t, by rw [hdt, runSub_cons_not_run hd], hd⟩
          rw [runSub_cons_run hc]
          by_cases h32 : 32 ≤ ((c :: r).takeWhile isRunChar).length
          · rw [if_pos h32]
            have hsplit : redactedChars ++ runSub ((c :: r).dropWhile isRunChar) =
                '[' :: (['R', 'E', 'D', 'A', 'C', 'T', 'E', 'D'] ++
                  (']' :: runSub ((c :: r).dropWhile isRunChar))) := by
              simp [redactedChars]
            rw [hsplit, runSub_cons_not_run (by decide),
              runSub_run_append (by decide) (by decide)
                (Or.inr ⟨']', runSub ((c :: r).dropWhile isRunChar), rfl, by decide⟩),
              if_neg (by decide), runSub_cons_not_run (by decide), ihX]
          · rw [if_neg h32]
            rw [runSub_run_append (takeWhile_cons_ne_nil hc) hall hXv, if_neg h32, ihX]
  exact fun s => H s.length s (le_refl _)

theorem runSub_decomp : ∀ (x : List Char), runSub x = x ∨
    ∃ a run0 rest0, x = a ++ run0 ++ rest0 ∧
      runSub x = a ++ redactedChars ++ runSub rest0 ∧
      run0 ≠ [] ∧ (∀ c ∈ run0, isRunChar c = true) ∧
      (a = [] ∨ ∃ l, a.getLast? = some l ∧ isRunChar l = false) := by
  have H : ∀ (n : Nat) (x : List Char), x.length ≤ n → runSub x = x ∨
      ∃ a run0 rest0, x = a ++ run0 ++ rest0 ∧
        runSub x = a ++ redactedChars ++ runSub rest0 ∧
        run0 ≠ [] ∧ (∀ c ∈ run0, isRunChar c = true) ∧
        (a = [] ∨ ∃ l, a.getLast? = some l ∧ isRunChar l = false) := by
    intro n
    induction n using Nat.strong_induction_on with
    | _ n ih =>
      intro x hlen
      cases x with
      | nil => exact Or.inl runSub_nil
      | cons c r =>
        rcases hc : isRunChar c with _ | _
        · have hr : r.length < n := by
            simp only [List.length_cons] at hlen
            omega
          rcases ih r.length hr r (le_refl _) with hid | ⟨a, run0, rest0, hx, hs, hne, hall, hlast⟩
          · exact Or.inl (by rw [runSub_cons_not_run hc, hid])
          · refine Or.inr ⟨c :: a, run0, rest0, by simp [hx], ?_, hne, hall, ?_⟩
            · rw [runSub_cons_not_run hc, hs]
              simp
            · right
              rcases hlast with rfl | ⟨l, hl, hlr⟩
              · exact ⟨c, by simp [List.getLast?_singleton], hc⟩
              · refine ⟨l, ?_, hlr⟩
                have h0 : ([c] ++ a).getLast? = a.getLast?.or [c].getLast? :=
                  List.getLast?_append
                simp only [List.singleton_append] at h0
                rw [h0, hl]
                rfl
        · have hall : ∀ y ∈ (c :: r).takeWhile isRunChar, isRunChar y = true :=
            fun y hy => List.mem_takeWhile_imp hy
          have happ := List.takeWhile_append_dropWhile (p := isRunChar) (l := c :: r)
          have hdlen : ((c :: r).dropWhile isRunChar).length < n := by
            have := takeWhile_dropWhile_length (r := r) hc
            simp only [List.length_cons] at this hlen
            omega
          rw [runSub_cons_run hc]
          by_cases h32 : 32 ≤ ((c :: r).takeWhile isRunChar).length
          · rw [if_pos h32]
            exact Or.inr ⟨[], (c :: r).takeWhile isRunChar, (c :: r).dropWhile isRunChar,
              by simp [happ], by simp, takeWhile_cons_ne_nil hc, hall, Or.inl rfl⟩
          · rw [if_neg h32]
            rcases ih _ hdlen ((c :: r).dropWhile isRunChar) (le_refl _) with
              hid | ⟨a, run0, rest0, hx, hs, hne, hall0, hlast⟩
            · exact Or.inl (by rw [hid, happ])
            · have hane : a ≠ [] := by
                intro hanil
                subst hanil
                simp only [List.nil_append] at hx
                obtain ⟨rhd, rtl, hr0⟩ : ∃ rhd rtl, run0 = rhd :: rtl := by
                  cases run0 with
                  | nil => exact absurd rfl hne
                  | cons u v => exact ⟨u, v, rfl⟩
                have hrun_hd : isRunChar rhd = true := hall0 rhd (by simp [hr0])
                rcases dropWhile_head_not (p := isRunChar) (c :: r) with hnil | ⟨d, t, hdt, hd⟩
                · rw [hnil] at hx
                  rw [hr0] at hx
                  cases hx
                · rw [hdt] at hx
                  rw [hr0] at hx
                  injection hx with h1 h2
                  rw [← h1] at hrun_hd
                  rw [hrun_hd] at hd
                  cases hd
              refine Or.inr ⟨(c :: r).takeWhile isRunChar ++ a, run0, rest0, ?_, ?_, hne, hall0, ?_⟩
              · calc c :: r
                    = (c :: r).takeWhile isRunChar ++ (c :: r).dropWhile isRunChar :=
                      happ.symm
                  _ = (c :: r).takeWhile isRunChar ++ (a ++ run0 ++ rest0) := by rw [hx]
                  _ = (c :: r).takeWhile isRunChar ++ a ++ run0 ++ rest0 := by
                      simp [List.append_assoc]
              · rw [hs]
                simp
              · right
                rcases hlast with rfl | ⟨l, hl, hlr⟩
                · exact absurd rfl hane
                · refine ⟨l, ?_, hlr⟩
                  have : ((c :: r).takeWhile isRunChar ++ a).getLast? =
                      a.getLast?.or ((c :: r).takeWhile isRunChar).getLast? :=
                    List.getLast?_append
                  rw [this, hl]
                  rfl
  exact fun x => H x.length x (le_refl _)

/-- Crossing lemma for the token substitution: replacing long runs further
right never creates a card-number match across the seam, provided the
substituted suffix starts at a non-run character (as every `dropWhile`
suffix does).  A match in the substituted list would have to lie inside the
unchanged part (then it already matched), swallow the `[` of a marker, or
end exactly where a replaced run began — impossible, since the character
before a replaced maximal run is not a run character, hence not the digit
the match would need there. -/
theorem matchCC_run_append_none {y x : List Char}
    (hx : x = [] ∨ ∃ c t, x = c :: t ∧ isRunChar c = false)
    (h : matchCC (y ++ x) = none) : matchCC (y ++ runSub x) = none := by
  rcases hm : matchCC (y ++ runSub x) with _ | rest'
  · rfl
  exfalso
  obtain ⟨b, hbr, hb, hba⟩ := matchCC_sound hm
  rcases runSub_decomp x with hid | ⟨a, run0, rest0, hxd, hs, hne, hall0, hlast⟩
  · rw [hid] at hbr
    rw [hbr, matchCC_complete hb hba] at h
    cases h
  · have hane : a ≠ [] := by
      intro hanil
      subst hanil
      simp only [List.nil_append] at hxd
      obtain ⟨rhd, rtl, hr0⟩ : ∃ rhd rtl, run0 = rhd :: rtl := by
        cases run0 with
        | nil => exact absurd rfl hne
        | cons u v => exact ⟨u, v, rfl⟩
      rcases hx with rfl | ⟨c, t, hct, hcr⟩
      · rw [hr0] at hxd
        cases hxd
      · rw [hct, hr0] at hxd
        injection hxd with h1 h2
        have := hall0 rhd (by simp [hr0])
        rw [← h1] at this
        rw [this] at hcr
        cases hcr
    obtain ⟨l, hl, hlr⟩ : ∃ l, a.getLast? = some l ∧ isRunChar l = false := by
      rcases hlast with rfl | hsome
      · exact absurd rfl hane
      · exact hsome
    have hT : b ++ rest' = (y ++ a) ++ (redactedChars ++ runSub rest0) := by
      rw [← hbr, hs]
      simp
    have hboundary_case : b = y ++ a → False := by
      intro hba2
      obtain ⟨d, hd, hdd⟩ := IsBody_last_digit hb
      rw [hba2] at hd
      have hfull : (y ++ a).getLast? = a.getLast?.or y.getLast? := List.getLast?_append
      rw [hfull, hl] at hd
      have : some l = some d := hd
      injection this with hld
      rw [← hld] at hdd
      rw [runChar_of_digit hdd] at hlr
      cases hlr
    rcases List.append_eq_append_iff.mp hT with ⟨t, hat, hrt⟩ | ⟨t, hbt, hrt⟩
    · -- y ++ a = b ++ t: the match lies inside the unchanged prefix
      cases t with
      | nil =>
        rw [List.append_nil] at hat
        exact hboundary_case hat.symm
      | cons thd tt =>
        have hhead : isWordChar thd = false := by
          rw [hrt] at hba
          simpa [boundaryAfter] using hba
        have hcr2 : y ++ x = b ++ ((thd :: tt) ++ run0 ++ rest0) := by
          calc y ++ x = y ++ (a ++ run0 ++ rest0) := by rw [hxd]
            _ = (y ++ a) ++ run0 ++ rest0 := by simp
            _ = (b ++ (thd :: tt)) ++ run0 ++ rest0 := by rw [hat]
            _ = b ++ ((thd :: tt) ++ run0 ++ rest0) := by simp
        have hco := matchCC_complete hb
          (show boundaryAfter ((thd :: tt) ++ run0 ++ rest0) = true by
            simp [boundaryAfter, hhead])
        rw [← hcr2] at hco
        rw [hco] at h
        cases h
    · -- b = (y ++ a) ++ t: the match swallows the '[' of the marker
      cases t with
      | nil =>
        rw [List.append_nil] at hbt
        exact hboundary_case hbt
      | cons thd tt =>
        have hthd : thd = '[' := by
          have := congrArg List.head? hrt
          simpa [redactedChars] using this.symm
        subst hthd
        have hmem : '[' ∈ b := by
          rw [hbt]
          simp
        rcases IsBody_chars hb '[' hmem with hdig | hsep
        · simp [Char.isDigit] at hdig
        · simp [isSepChar] at hsep

theorem hasCC_cons_decompose {p : Bool} {c : Char} {x : List Char}
    (h : hasCC p (c :: x) = false) :
    (!p && (matchCC (c :: x)).isSome) = false ∧ hasCC (isWordChar c) x = false := by
  have h0 : ((!p && (matchCC (c :: x)).isSome) || hasCC (isWordChar c) x) = false := h
  simpa using h0

theorem hasCC_append_split : ∀ (u : List Char) (p : Bool) (x : List Char),
    hasCC p (u ++ x) = false → ∃ q, hasCC q x = false := by
  intro u
  induction u with
  | nil => exact fun p x h => ⟨p, h⟩
  | cons d u' ih =>
    intro p x h
    exact ih _ x (hasCC_cons_decompose h).2

theorem hasCC_walk (x : List Char)
    (hx : x = [] ∨ ∃ c t, x = c :: t ∧ isRunChar c = false)
    (F : ∀ q, hasCC q x = false → hasCC q (runSub x) = false) :
    ∀ (u : List Char) (p : Bool),
      hasCC p (u ++ x) = false → hasCC p (u ++ runSub x) = false := by
  intro u
  induction u with
  | nil => exact fun p h => F p h
  | cons d u' ihu =>
    intro p h
    obtain ⟨h1, h2⟩ := hasCC_cons_decompose h
    simp only [List.append_eq] at h1 h2
    have goal2 := ihu (isWordChar d) h2
    have goal1 : (!p && (matchCC (d :: (u' ++ runSub x))).isSome) = false := by
      cases p with
      | true => simp
      | false =>
        have hnone : matchCC (d :: (u' ++ x)) = none := by
          rcases hm : matchCC (d :: (u' ++ x)) with _ | v
          · rfl
          · rw [hm] at h1
            simp at h1
        have := matchCC_run_append_none (y := d :: u') hx
          (by simpa [List.cons_append] using hnone)
        simp only [List.cons_append] at this
        rw [this]
        simp
    show ((!p && (matchCC (d :: (u' ++ runSub x))).isSome) ||
      hasCC (isWordChar d) (u' ++ runSub x)) = false
    rw [goal1, goal2]
    rfl

theorem hasCC_runSub : ∀ (s : List Char) (p : Bool),
    hasCC p s = false → hasCC p (runSub s) = false := by
  have H : ∀ (n : Nat) (s : List Char) (p : Bool), s.length ≤ n →
      hasCC p s = false → hasCC p (runSub s) = false := by
    intro n
    induction n using Nat.strong_induction_on with
    | _ n ih =>
      intro s p hlen h
      cases s with
      | nil => rw [runSub_nil]; exact h
      | cons c r =>
        rcases hc : isRunChar c with _ | _
        · have hr : r.length < n := by
            simp only [List.length_cons] at hlen
            omega
          obtain ⟨h1, h2⟩ := hasCC_cons_decompose h
          rw [runSub_cons_not_run hc]
          show ((!p && (matchCC (c :: runSub r)).isSome) ||
            hasCC (isWordChar c) (runSub r)) = false
          rw [matchCC_none_not_digit (not_digit_of_not_run hc),
            ih r.length hr r (isWordChar c) (le_refl _) h2]
          simp
        · have happ := List.takeWhile_append_dropWhile (p := isRunChar) (l := c :: r)
          have hdlen : ((c :: r).dropWhile isRunChar).length < n := by
            have := takeWhile_dropWhile_length (r := r) hc
            simp only [List.length_cons] at this hlen
            omega
          have hdw := dropWhile_head_not (p := isRunChar) (c :: r)
          have hsplit : hasCC p ((c :: r).takeWhile isRunChar ++
              (c :: r).dropWhile isRunChar) = false := by
            rw [happ]
            exact h
          rw [runSub_cons_run hc]
          by_cases h32 : 32 ≤ ((c :: r).takeWhile isRunChar).length
          · rw [if_pos h32, hasCC_red_append]
            obtain ⟨q, hq⟩ := hasCC_append_split _ p _ hsplit
            have hq' : hasCC false ((c :: r).dropWhile isRunChar) = false := by
              rcases hdw with hnil | ⟨d, t, hdt, hd⟩
              · rw [hnil] at hq ⊢
                cases q <;> simpa using hq
              · rw [hdt] at hq ⊢
                rw [hasCC_congr_prev (not_digit_of_not_run hd) false q]
                exact hq
            exact ih _ hdlen _ false (le_refl _) hq'
          · rw [if_neg h32]
            exact hasCC_walk _ hdw
              (fun q hq => ih _ hdlen _ q (le_refl _) hq) _ p hsplit
  exact fun s p => H s.length s p (le_refl _)

/-- The string case of `MessageFilter.sanitize_content`: the card-number
substitution followed by the 32+-character token substitution. -/
def sanitizeString (s : String) : String :=
  ⟨runSub (ccSub false s.data)⟩

mutual

/-- `MessageFilter.sanitize_content`: substitute the two redaction patterns
in strings, recurse into dict values (preserving keys) and into list
elements, and return every other value unchanged. -/
def sanitizeContent : Json → Json
  | Json.str s => Json.str (sanitizeString s)
  | Json.obj f => Json.obj (sanitizeContentObj f)
  | Json.arr l => Json.arr (sanitizeContentArr l)
  | v => v

/-- The dict comprehension `{k: self.sanitize_content(v) for k, v in ...}`. -/
def sanitizeContentObj : List (String × Json) → List (String × Json)
  | [] => []
  | (k, v) :: rest => (k, sanitizeContent v) :: sanitizeContentObj rest

/-- The list comprehension `[self.sanitize_content(item) for item in ...]`. -/
def sanitizeContentArr : List Json → List Json
  | [] => []
  | x :: rest => sanitizeContent x :: sanitizeContentArr rest

end

theorem sanitizeString_idem (s : String) :
    sanitizeString (sanitizeString s) = sanitizeString s := by
  have h1 : hasCC false (ccSub false s.data) = false := hasCC_ccSub s.data false
  have h2 : hasCC false (runSub (ccSub false s.data)) = false :=
    hasCC_runSub (ccSub false s.data) false h1
  have h3 : ccSub false (runSub (ccSub false s.data)) = runSub (ccSub false s.data) :=
    ccSub_of_not_hasCC h2
  show (⟨runSub (ccSub false (runSub (ccSub false s.data)))⟩ : String) =
    ⟨runSub (ccSub false s.data)⟩
  rw [h3, runSub_idem]

theorem sanitizeContentArr_idem (l : List Json)
    (ih : ∀ x ∈ l, sanitizeContent (sanitizeContent x) = sanitizeContent x) :
    sanitizeContentArr (sanitizeContentArr l) = sanitizeContentArr l := by
  induction l with
  | nil => rfl
  | cons x rest ihr =>
    show sanitizeContent (sanitizeContent x) :: sanitizeContentArr (sanitizeContentArr rest) =
      sanitizeContent x :: sanitizeContentArr rest
    rw [ih x (by simp), ihr (fun y hy => ih y (by simp [hy]))]

theorem sanitizeContentObj_idem (f : List (String × Json))
    (ih : ∀ kv ∈ f, sanitizeContent (sanitizeContent (Prod.snd kv)) =
      sanitizeContent (Prod.snd kv)) :
    sanitizeContentObj (sanitizeContentObj f) = sanitizeContentObj f := by
  induction f with
  | nil => rfl
  | cons kv rest ihr =>
    cases kv with
    | mk k v =>
      show (k, sanitizeContent (sanitizeContent v)) ::
          sanitizeContentObj (sanitizeContentObj rest) =
        (k, sanitizeContent v) :: sanitizeContentObj rest
      rw [ih (k, v) (by simp), ihr (fun y hy => ih y (by simp [hy]))]

/-- C8: content sanitization is idempotent.  For every JSON content value,
applying `sanitize_content` twice equals applying it once: the `[REDACTED]`
marker inserted by either regex pass contains no digits and its bracketed
letters never extend an adjacent match of the card-number or the
32+-character-token pattern, so a second pass finds nothing further to
redact, and the structural recursion through objects and arrays preserves
this pointwise. -/
theorem c8_sanitize_idempotent (content : Json) :
    sanitizeContent (sanitizeContent content) = sanitizeContent content := by
  induction content using Json.inductionOn with
  | hnull => rfl
  | hbool b => rfl
  | hnum n => rfl
  | hstr s =>
    show Json.str (sanitizeString (sanitizeString s)) = Json.str (sanitizeString s)
    rw [sanitizeString_idem]
  | harr l ih =>
    show Json.arr (sanitizeContentArr (sanitizeContentArr l)) =
      Json.arr (sanitizeContentArr l)
    rw [sanitizeContentArr_idem l ih]
  | hobj f ih =>
    show Json.obj (sanitizeContentObj (sanitizeContentObj f)) =
      Json.obj (sanitizeContentObj f)
    rw [sanitizeContentObj_idem f ih]
